import Mathlib

/-!
# Verification of the venial type-declaration parser core

Shallow embedding of `src/multipeek.rs` and `src/parse_type.rs`.

Token streams are embedded as `List TokenTree`; the `Peekable` cursor that the
Rust code threads through every parser becomes explicit state passing: a Rust
function `fn f(tokens: &mut TokenIter) -> T` becomes a Lean function
`List TokenTree → Option (T × List TokenTree)` where `Option.none` models a
fatal `panic!`/`expect` abort and the returned list is the remaining stream.
The `Multipeek` lookahead cursor is embedded with its buffer and its
underlying iterator both as lists.

Helper functions that the source calls but whose code is not part of the two
embedded files (`consume_stuff_until`, `consume_comma`, `parse_ident`,
`try_consume_colon2`, `consume_attributes`, `consume_vis_marker` and the tree
data types) are modelled from the specification; each such definition carries
a doc comment starting with `Modelled from the spec:`.
-/

/-- Delimiter kind of a `proc_macro2` group token: parentheses, braces,
brackets, or the implicit none delimiter. -/
inductive Delim : Type
  | paren
  | brace
  | bracket
  | implicitNone
deriving Repr

/-- A punctuation token: its character and the joint flag marking adjacency
with the next punctuation token (used for multi-character operators). -/
structure Punct : Type where
  char : Char
  joint : Bool
deriving Repr

/-- A lexical token: identifier, punctuation, literal, or a delimited group
holding a nested token sequence. Mirrors `proc_macro2::TokenTree`. -/
inductive TokenTree : Type
  | ident (name : String)
  | punct (p : Punct)
  | lit (text : String)
  | group (delim : Delim) (inner : List TokenTree)
deriving Repr

/-- The apostrophe character used as the lifetime marker. -/
def quoteChar : Char := Char.ofNat 39

/-- Whether a token is a comma punctuation. -/
def isCommaTok : TokenTree → Bool
  | TokenTree.punct p => p.char = ','
  | _ => false

/-- Whether a token is a semicolon punctuation. -/
def isSemiTok : TokenTree → Bool
  | TokenTree.punct p => p.char = ';'
  | _ => false

/-- Whether a token is a colon punctuation. -/
def isColonTok : TokenTree → Bool
  | TokenTree.punct p => p.char = ':'
  | _ => false

/-- Whether a token is an opening angle bracket punctuation. -/
def isLtTok : TokenTree → Bool
  | TokenTree.punct p => p.char = '<'
  | _ => false

/-- Whether a token is a closing angle bracket punctuation. -/
def isGtTok : TokenTree → Bool
  | TokenTree.punct p => p.char = '>'
  | _ => false

/-- Whether a token is a brace-delimited group. -/
def isBraceGroup : TokenTree → Bool
  | TokenTree.group Delim.brace _ => true
  | _ => false

/-!
## The lookahead cursor (`src/multipeek.rs`)

`Multipeek` wraps an iterator with a FIFO buffer. The iterator itself is
embedded as the list of items it has yet to produce.
-/

/-- The lookahead cursor: `iter` is the sequence of items the underlying
iterator has not produced yet; `buffer` is the FIFO lookahead cache. -/
structure Multipeek (α : Type) : Type where
  iter : List α
  buffer : List α

/-- The logical stream of a cursor: buffered items followed by the items the
underlying iterator will still produce. -/
def mstream {α : Type} (s : Multipeek α) : List α :=
  s.buffer ++ s.iter

/-- The `for _ in 0..advance_by` loop inside `peek_nth`: pull `n` items from
the underlying iterator one at a time, appending each to the buffer tail.
Returns `false` paired with the partially advanced state when the iterator is
exhausted mid-way (the Rust code returns `None` at that point). -/
def advanceLoop {α : Type} : Nat → Multipeek α → Bool × Multipeek α
  | 0, s => (true, s)
  | n + 1, s =>
    match s.iter with
    | [] => (false, s)
    | x :: rest => advanceLoop n ⟨rest, s.buffer ++ [x]⟩

/-- `Multipeek::peek_nth`: return the `ahead`-th token of the logical stream
without consuming it, extending the buffer as needed; `none` when the stream
is too short. -/
def Multipeek.peek_nth {α : Type} (s : Multipeek α) (ahead : Nat) :
    Option α × Multipeek α :=
  if ahead < s.buffer.length then (s.buffer.get? ahead, s)
  else
    let r := advanceLoop (ahead - s.buffer.length + 1) s
    if r.1 then (r.2.buffer.get? ahead, r.2) else (none, r.2)

/-- `Multipeek::next` (the `Iterator` impl): pop the buffer head if the buffer
is non-empty, otherwise pull directly from the underlying iterator without
buffering. -/
def Multipeek.next {α : Type} (s : Multipeek α) : Option α × Multipeek α :=
  match s.buffer with
  | x :: rest => (some x, ⟨s.iter, rest⟩)
  | [] =>
    match s.iter with
    | y :: rest => (some y, ⟨rest, []⟩)
    | [] => (none, s)

/-- Apply a sequence of `peek_nth` calls, keeping only the final state. -/
def peekSeq {α : Type} : List Nat → Multipeek α → Multipeek α
  | [], s => s
  | k :: ks, s => peekSeq ks (Multipeek.peek_nth s k).2

/-- The outputs of `n` successive `next` calls on a cursor. -/
def drain {α : Type} : Nat → Multipeek α → List α
  | 0, _ => []
  | n + 1, s =>
    match Multipeek.next s with
    | (some x, s') => x :: drain n s'
    | (none, _) => []

/-- Boolean test that a list of peek depths is non-decreasing. -/
def ndecb : List Nat → Bool
  | a :: b :: rest => Nat.ble a b && ndecb (b :: rest)
  | _ => true

/-- The maximal requested peek depth of a sequence (0 for the empty one). -/
def maxPeek : List Nat → Nat
  | [] => 0
  | k :: ks => max k (maxPeek ks)

theorem advanceLoop_of_le {α : Type} :
    ∀ (n : Nat) (it bf : List α), n ≤ it.length →
      advanceLoop n ⟨it, bf⟩ = (true, ⟨it.drop n, bf ++ it.take n⟩) := by
  intro n
  induction n with
  | zero => intro it bf _; simp [advanceLoop]
  | succ m ih =>
    intro it bf h
    match it with
    | [] => simp at h
    | x :: rest =>
      have hr : m ≤ rest.length := by simpa [Nat.succ_le_succ_iff] using h
      simp only [advanceLoop]
      rw [ih rest (bf ++ [x]) hr]
      simp

theorem advanceLoop_of_gt {α : Type} :
    ∀ (n : Nat) (it bf : List α), it.length < n →
      advanceLoop n ⟨it, bf⟩ = (false, ⟨[], bf ++ it⟩) := by
  intro n
  induction n with
  | zero => intro it bf h; simp at h
  | succ m ih =>
    intro it bf h
    match it with
    | [] => simp [advanceLoop]
    | x :: rest =>
      have hr : rest.length < m := by simpa [Nat.succ_lt_succ_iff] using h
      simp only [advanceLoop]
      rw [ih rest (bf ++ [x]) hr]
      simp

/-- On a successful peek the cursor's state is fully determined: the buffer
becomes the first `max (k+1) b` elements of the logical stream, the iterator
keeps the rest, where `b` is the number of already buffered items. -/
theorem peek_nth_state {α : Type} (it bf : List α) (k : Nat)
    (h : k + 1 ≤ bf.length + it.length) :
    (Multipeek.peek_nth ⟨it, bf⟩ k).2 =
      ⟨(bf ++ it).drop (max (k + 1) bf.length),
       (bf ++ it).take (max (k + 1) bf.length)⟩ := by
  simp only [Multipeek.peek_nth]
  by_cases hk : k < bf.length
  · have hmax : max (k + 1) bf.length = bf.length := by omega
    rw [if_pos hk, hmax]
    simp
  · have hge : bf.length ≤ k := Nat.le_of_not_lt hk
    have hn : k - bf.length + 1 ≤ it.length := by omega
    rw [if_neg hk, advanceLoop_of_le _ _ _ hn]
    have hmax : max (k + 1) bf.length = k + 1 := by omega
    simp only [if_true, hmax]
    simp only [Multipeek.mk.injEq]
    constructor
    · rw [List.drop_append_eq_append_drop]
      rw [List.drop_eq_nil_of_le (by omega : bf.length ≤ k + 1)]
      simp only [List.nil_append]
      congr 1
      omega
    · rw [List.take_append_eq_append_take]
      rw [List.take_of_length_le (by omega : bf.length ≤ k + 1)]
      congr 2
      omega

/-- A successful peek returns the `k`-th element of the logical stream. -/
theorem peek_nth_val {α : Type} (it bf : List α) (k : Nat)
    (h : k + 1 ≤ bf.length + it.length) :
    (Multipeek.peek_nth ⟨it, bf⟩ k).1 = (bf ++ it).get? k := by
  simp only [Multipeek.peek_nth]
  by_cases hk : k < bf.length
  · rw [if_pos hk]
    rw [List.get?_append hk]
  · have hge : bf.length ≤ k := Nat.le_of_not_lt hk
    have hn : k - bf.length + 1 ≤ it.length := by omega
    rw [if_neg hk, advanceLoop_of_le _ _ _ hn]
    simp only [if_true]
    rw [List.get?_append_right hge, List.get?_append_right hge]
    rw [List.get?_take (by omega)]

/-- Draining a cursor with `next` produces exactly its logical stream, in
order: `n` calls yield the first `n` elements. -/
theorem drain_eq_take {α : Type} :
    ∀ (n : Nat) (it bf : List α), drain n ⟨it, bf⟩ = (bf ++ it).take n := by
  intro n
  induction n with
  | zero => intro it bf; simp [drain]
  | succ m ih =>
    intro it bf
    match bf with
    | x :: rest =>
      have hn : Multipeek.next ⟨it, x :: rest⟩ = (some x, ⟨it, rest⟩) := by
        simp [Multipeek.next]
      simp only [drain]
      rw [hn]
      simp [ih]
    | [] =>
      match it with
      | y :: rest =>
        have hn : Multipeek.next ⟨y :: rest, []⟩ = (some y, ⟨rest, []⟩) := by
          simp [Multipeek.next]
        simp only [drain]
        rw [hn]
        simp [ih]
      | [] =>
        have hn : Multipeek.next (⟨[], []⟩ : Multipeek α) = (none, ⟨[], []⟩) := by
          simp [Multipeek.next]
        simp only [drain]
        rw [hn]
        simp

theorem peekSeq_state {α : Type} :
    ∀ (ks : List Nat) (it bf : List α), ks ≠ [] →
      maxPeek ks + 1 ≤ bf.length + it.length →
      peekSeq ks ⟨it, bf⟩ =
        ⟨(bf ++ it).drop (max (maxPeek ks + 1) bf.length),
         (bf ++ it).take (max (maxPeek ks + 1) bf.length)⟩ := by
  intro ks
  induction ks with
  | nil => intro it bf h; exact absurd rfl h
  | cons k ks ih =>
    intro it bf _ hle
    have hmk : k ≤ maxPeek (k :: ks) := by simp [maxPeek]
    have hk1 : k + 1 ≤ bf.length + it.length := by omega
    have hstep := peek_nth_state it bf k hk1
    by_cases hks : ks = []
    · subst hks
      simp only [peekSeq, hstep]
      simp [maxPeek]
    · simp only [peekSeq, hstep]
      have hM1le : max (k + 1) bf.length ≤ (bf ++ it).length := by
        simp only [List.length_append]
        omega
      have hlen2 : ((bf ++ it).take (max (k + 1) bf.length)).length
          = max (k + 1) bf.length := by
        rw [List.length_take, Nat.min_eq_left hM1le]
      have hmks : maxPeek ks ≤ maxPeek (k :: ks) := by simp [maxPeek]
      have hle2 : maxPeek ks + 1 ≤
          ((bf ++ it).take (max (k + 1) bf.length)).length +
          ((bf ++ it).drop (max (k + 1) bf.length)).length := by
        simp only [List.length_take, List.length_drop, List.length_append]
        simp only [List.length_append] at hM1le
        omega
      rw [ih _ _ hks hle2]
      rw [List.take_append_drop, hlen2]
      have hmx : max (maxPeek ks + 1) (max (k + 1) bf.length) =
          max (maxPeek (k :: ks) + 1) bf.length := by
        simp only [maxPeek]
        omega
      rw [hmx]

/-- C7. Lookahead cache monotonicity: for any non-decreasing sequence of
`peek_nth` depths that stays within the available tokens, the underlying
iterator is advanced by exactly `max(k)+1` minus the number of tokens already
buffered, the logical stream is unchanged, and a subsequent `next` yields the
token previously returned by `peek_nth 0`. -/
theorem claim_C7 {α : Type} (s : Multipeek α) (ks : List Nat)
    (hnd : ndecb ks = true) (hne : ks ≠ [])
    (hin : maxPeek ks + 1 ≤ s.buffer.length + s.iter.length) :
    s.iter.length - (peekSeq ks s).iter.length = (maxPeek ks + 1) - s.buffer.length
    ∧ mstream (peekSeq ks s) = mstream s
    ∧ ∀ t : α, (Multipeek.peek_nth s 0).1 = some t →
        (Multipeek.next (peekSeq ks s)).1 = some t := by
  obtain ⟨it, bf⟩ := s
  simp only at hin ⊢
  have hst := peekSeq_state ks it bf hne hin
  have hMle : max (maxPeek ks + 1) bf.length ≤ (bf ++ it).length := by
    simp only [List.length_append]
    omega
  refine ⟨?_, ?_, ?_⟩
  · rw [hst]
    simp only [List.length_drop, List.length_append]
    omega
  · rw [hst]
    simp [mstream]
  · intro t ht
    have h01 : (0 : Nat) + 1 ≤ bf.length + it.length := by omega
    have hv := peek_nth_val it bf 0 h01
    rw [hv] at ht
    rw [hst]
    have hpos : 0 < max (maxPeek ks + 1) bf.length := by omega
    have hlen : 0 < bf.length + it.length := by
      by_contra hc
      have h0 : (bf ++ it).length ≤ 0 := by
        simp only [List.length_append]
        omega
      have : (bf ++ it).get? 0 = none := List.get?_eq_none.mpr h0
      rw [this] at ht
      exact Option.noConfusion ht
    match hb : (bf ++ it).take (max (maxPeek ks + 1) bf.length) with
    | [] =>
      have := congrArg List.length hb
      simp only [List.length_take, List.length_nil, List.length_append] at this
      omega
    | x :: rest =>
      have hx : (bf ++ it).get? 0 = some x := by
        have := congrArg (fun l => l.get? 0) hb
        simp only [List.get?_take hpos] at this
        simpa using this
      rw [hx] at ht
      simp only [Multipeek.next, hb]
      exact ht

/-- Witness for C7 at a concrete cursor and peek sequence. -/
theorem claim_C7_witness :
    ndecb [0, 2] = true
    ∧ maxPeek [0, 2] + 1 ≤
        (Multipeek.mk [1, 2, 3] ([] : List Nat)).buffer.length +
        (Multipeek.mk [1, 2, 3] ([] : List Nat)).iter.length
    ∧ (Multipeek.mk [1, 2, 3] ([] : List Nat)).iter.length -
        (peekSeq [0, 2] (Multipeek.mk [1, 2, 3] ([] : List Nat))).iter.length =
        (maxPeek [0, 2] + 1) - (Multipeek.mk [1, 2, 3] ([] : List Nat)).buffer.length
    ∧ (Multipeek.next (peekSeq [0, 2] (Multipeek.mk [1, 2, 3] ([] : List Nat)))).1 =
        some 1 := by
  have h := claim_C7 (Multipeek.mk [1, 2, 3] ([] : List Nat)) [0, 2]
    rfl (by simp) (by simp [maxPeek])
  exact ⟨rfl, by simp [maxPeek], h.1, h.2.2 1 rfl⟩

/-- C8. A failed deep peek loses nothing: when `peek_nth` returns `none`
because the underlying iterator is exhausted, every pulled token is in the
buffer, the iterator is empty, and draining with `next` reproduces exactly
the original logical stream. -/
theorem claim_C8 {α : Type} (s : Multipeek α) (k : Nat)
    (h : (Multipeek.peek_nth s k).1 = none) :
    (Multipeek.peek_nth s k).2.buffer = s.buffer ++ s.iter
    ∧ (Multipeek.peek_nth s k).2.iter = []
    ∧ ∀ n : Nat, drain n (Multipeek.peek_nth s k).2 = (s.buffer ++ s.iter).take n := by
  obtain ⟨it, bf⟩ := s
  simp only at h ⊢
  have hnone : ¬ (k + 1 ≤ bf.length + it.length) := by
    intro hle
    have := peek_nth_val it bf k hle
    rw [this] at h
    have : (bf ++ it).length ≤ k := List.get?_eq_none.mp h
    simp only [List.length_append] at this
    omega
  have hk : ¬ (k < bf.length) := by omega
  have hgt : it.length < k - bf.length + 1 := by omega
  have hloop := advanceLoop_of_gt (k - bf.length + 1) it bf hgt
  have hstate : (Multipeek.peek_nth ⟨it, bf⟩ k).2 = ⟨[], bf ++ it⟩ := by
    simp only [Multipeek.peek_nth]
    rw [if_neg hk, hloop]
    simp
  refine ⟨by rw [hstate], by rw [hstate], ?_⟩
  intro n
  rw [hstate, drain_eq_take]
  simp

/-- Witness for C8: a depth-3 peek into a one-element stream fails but the
element survives into the buffer and is produced by draining. -/
theorem claim_C8_witness :
    (Multipeek.peek_nth (Multipeek.mk [5] ([] : List Nat)) 3).1 = none
    ∧ (Multipeek.peek_nth (Multipeek.mk [5] ([] : List Nat)) 3).2.buffer = [5]
    ∧ (Multipeek.peek_nth (Multipeek.mk [5] ([] : List Nat)) 3).2.iter = []
    ∧ drain 1 (Multipeek.peek_nth (Multipeek.mk [5] ([] : List Nat)) 3).2 = [5] := by
  have h := claim_C8 (Multipeek.mk [5] ([] : List Nat)) 3 rfl
  exact ⟨rfl, h.1, h.2.1, h.2.2 1⟩

/-!
## Tree data model (`crate::types`, modelled from the spec §3)

The node types built by `parse_type.rs`. Spans carry no parsing information,
so a `GroupSpan` keeps only the delimiter kind of the group it came from.
-/

/-- Modelled from the spec: a punctuated list (§3) is an ordered sequence of
items each paired with an optional trailing separator token. -/
abbrev Punctuated (α : Type) : Type := List (α × Option Punct)

/-- Modelled from the spec: the recoverable error value type
(`crate::error::Error`), carrying a message. -/
structure Error : Type where
  msg : String
deriving Repr

/-- Modelled from the spec: an opaque, unparsed token sequence standing for a
type or constant expression (§3). -/
structure TyExpr : Type where
  tokens : List TokenTree
deriving Repr

/-- Modelled from the spec: a generic bound — colon token plus raw bound
token sequence (§3). -/
structure GenericBound : Type where
  tk_colon : Punct
  tokens : List TokenTree
deriving Repr

/-- Modelled from the spec: one generic parameter — optional prefix token
(lifetime-marker punctuation or `const` keyword), name, optional bound (§3).
The prefix field is named `tk_pre` here. -/
structure GenericParam : Type where
  tk_pre : Option TokenTree
  name : String
  bound : Option GenericBound
deriving Repr

/-- Modelled from the spec: a generic parameter list with its bracket
tokens (§3). -/
structure GenericParamList : Type where
  tk_l_bracket : Punct
  params : Punctuated GenericParam
  tk_r_bracket : Punct
deriving Repr

/-- Modelled from the spec: the three generic-argument shapes (§3). -/
inductive GenericArg : Type
  | lifetime (tk_lifetime : Punct) (ident : String)
  | binding (ident : String) (tk_equals : Punct) (ty : TyExpr)
  | tyOrConst (expr : TyExpr)
deriving Repr

/-- Modelled from the spec: a generic argument list — optional turbofish
double-colon, brackets, punctuated arguments (§3). -/
structure GenericArgList : Type where
  tk_turbofish_colons : Option (Punct × Punct)
  tk_l_bracket : Punct
  args : Punctuated GenericArg
  tk_r_bracket : Punct
deriving Repr

/-- Modelled from the spec: one where-clause item — raw left-hand token
sequence plus a generic bound (§3). -/
structure WhereClauseItem : Type where
  left_side : List TokenTree
  bound : GenericBound
deriving Repr

/-- Modelled from the spec: a where clause — the `where` keyword identifier
plus punctuated items (§3). -/
structure WhereClause : Type where
  tk_where : String
  items : Punctuated WhereClauseItem
deriving Repr

/-- Modelled from the spec: an opaque attribute annotation produced by the
attribute-list collaborator (§6); it keeps the exact tokens consumed. -/
structure Attribute : Type where
  tokens : List TokenTree
deriving Repr

/-- Modelled from the spec: an opaque visibility marker produced by the
visibility collaborator (§6); it keeps the exact tokens consumed. -/
structure VisMarker : Type where
  tokens : List TokenTree
deriving Repr

/-- Modelled from the spec: `GroupSpan::new(&group)` records the group's
boundary for re-emission; only the delimiter kind is parsing-relevant. -/
structure GroupSpan : Type where
  delimiter : Delim
deriving Repr

/-- Modelled from the spec: a tuple-style field (§3). -/
structure TupleField : Type where
  attributes : List Attribute
  vis_marker : Option VisMarker
  ty : TyExpr
deriving Repr

/-- Modelled from the spec: tuple fields plus the parenthesis group's
boundary (§3). -/
structure TupleStructFields : Type where
  fields : Punctuated TupleField
  tk_parens : GroupSpan
deriving Repr

/-- Modelled from the spec: a named field (§3). -/
structure NamedField : Type where
  attributes : List Attribute
  vis_marker : Option VisMarker
  name : String
  tk_colon : Punct
  ty : TyExpr
deriving Repr

/-- Modelled from the spec: named fields plus the brace group's
boundary (§3). -/
structure NamedStructFields : Type where
  fields : Punctuated NamedField
  tk_braces : GroupSpan
deriving Repr

/-- Modelled from the spec: an enum variant's contents — unit, tuple fields,
or named fields (§3). -/
inductive StructFields : Type
  | unit
  | tuple (f : TupleStructFields)
  | named (f : NamedStructFields)
deriving Repr

/-- Modelled from the spec: an explicit enum discriminant — equals token plus
a single value token (§3). -/
structure EnumVariantValue : Type where
  tk_equal : Punct
  value : TokenTree
deriving Repr

/-- Modelled from the spec: an enum variant (§3). -/
structure EnumVariant : Type where
  attributes : List Attribute
  vis_marker : Option VisMarker
  name : String
  contents : StructFields
  value : Option EnumVariantValue
deriving Repr

/-!
## Collaborator helpers (`crate::parse_utils`, modelled from the spec §4.2/§6)
-/

/-- Modelled from the spec: the identifier extractor (§6) — given one token,
returns it as an identifier or reports failure. -/
def parse_ident : TokenTree → Option String
  | TokenTree.ident s => some s
  | _ => none

/-- Modelled from the spec: the comma consumer (§6) — consumes a comma token
if present, returns it or absent. -/
def consume_comma : List TokenTree → Option Punct × List TokenTree
  | TokenTree.punct p :: rest =>
    if p.char = ',' then (some p, rest) else (none, TokenTree.punct p :: rest)
  | s => (none, s)

/-- Modelled from the spec: the double-colon consumer (§6) — speculatively
consumes a double-colon sequence (a joint colon punctuation followed by a
colon punctuation), restoring the cursor when it is absent. -/
def try_consume_colon2 : List TokenTree → Option (Punct × Punct) × List TokenTree
  | TokenTree.punct p1 :: TokenTree.punct p2 :: rest =>
    if p1.char = ':' && p1.joint && p2.char = ':' then (some (p1, p2), rest)
    else (none, TokenTree.punct p1 :: TokenTree.punct p2 :: rest)
  | s => (none, s)

/-- Modelled from the spec: the attribute-list consumer (§6) — consumes zero
or more attribute annotations, each a hash punctuation followed by a
bracketed group, and returns them as opaque values keeping their tokens. -/
def consume_attributes : List TokenTree → List Attribute × List TokenTree
  | TokenTree.punct p :: TokenTree.group Delim.bracket g :: rest =>
    if p.char = '#' then
      let r := consume_attributes rest
      (Attribute.mk [TokenTree.punct p, TokenTree.group Delim.bracket g] :: r.1, r.2)
    else ([], TokenTree.punct p :: TokenTree.group Delim.bracket g :: rest)
  | s => ([], s)

/-- Modelled from the spec: the visibility-marker consumer (§6) — optionally
consumes a visibility qualifier (`pub`, optionally followed by a
parenthesized restriction group), returning it or absent. -/
def consume_vis_marker : List TokenTree → Option VisMarker × List TokenTree
  | TokenTree.ident s :: rest =>
    if s = "pub" then
      match rest with
      | TokenTree.group Delim.paren g :: rest2 =>
        (some (VisMarker.mk [TokenTree.ident s, TokenTree.group Delim.paren g]), rest2)
      | _ => (some (VisMarker.mk [TokenTree.ident s]), rest)
    else (none, TokenTree.ident s :: rest)
  | s => (none, s)

/-- Modelled from the spec: the Scoped Scanner `consume_stuff_until` (§4.2),
recursion worker carrying the angle-bracket nesting depth. Groups are atomic:
the predicate is only ever tested on whole top-level tokens, never on tokens
nested inside a group (§4.2), but it is tested on group tokens themselves
(§4.6 stops a scan at an opening-brace group). Angle-bracket punctuation
tokens adjust a nesting depth so that the predicate only fires at depth zero
(the call in `consume_generic_args` relies on skipping nested `<...>`), and
an unmatched closing angle bracket stops the scan, unconsumed (this is what
lets `consume_generic_params` stop a bound scan right before the list's
closing `>`). When the predicate fires with `includeLast` set, a copy of the
terminator is appended to the result while the terminator itself stays in
the stream — except a comma, which is never included (§4.6) and is left for
the separate comma consumer. -/
def stuff_until_go (pred : TokenTree → Bool) (includeLast : Bool) :
    Nat → List TokenTree → List TokenTree × List TokenTree
  | _, [] => ([], [])
  | depth, t :: rest =>
    if isLtTok t then
      (t :: (stuff_until_go pred includeLast (depth + 1) rest).1,
       (stuff_until_go pred includeLast (depth + 1) rest).2)
    else if isGtTok t then
      if depth = 0 then ([], t :: rest)
      else
        (t :: (stuff_until_go pred includeLast (depth - 1) rest).1,
         (stuff_until_go pred includeLast (depth - 1) rest).2)
    else if depth = 0 then
      if pred t then
        (if includeLast && !isCommaTok t then [t] else [], t :: rest)
      else
        (t :: (stuff_until_go pred includeLast depth rest).1,
         (stuff_until_go pred includeLast depth rest).2)
    else
      (t :: (stuff_until_go pred includeLast depth rest).1,
       (stuff_until_go pred includeLast depth rest).2)

/-- Modelled from the spec: the Scoped Scanner entry point (§4.2), starting
at angle-bracket depth zero. -/
def consume_stuff_until (pred : TokenTree → Bool) (includeLast : Bool)
    (s : List TokenTree) : List TokenTree × List TokenTree :=
  stuff_until_go pred includeLast 0 s

/-- The predicate of the where-clause bound scan: comma, opening-brace group,
or semicolon (`parse_type.rs` lines 264-268). -/
def wherePred (t : TokenTree) : Bool :=
  isCommaTok t || isBraceGroup t || isSemiTok t

/-!
## The parsers of `src/parse_type.rs`

Loops become fuel-indexed recursions; each wrapper passes `length + 1` fuel,
which is enough because every loop iteration consumes at least one token.
Fuel exhaustion returns `none`, the same value as a fatal panic.
-/

/-- The name/bound/trailing-comma part of one `consume_generic_params` loop
iteration (`parse_type.rs` lines 62-91), after the optional prefix token. -/
def genericParamTail (s : List TokenTree) :
    Option ((String × Option GenericBound × Option Punct) × List TokenTree) :=
  match s with
  | [] => none
  | nameTok :: s2 =>
    match parse_ident nameTok with
    | none => none
    | some nm =>
      match s2 with
      | [] => none
      | TokenTree.punct q :: s3 =>
        if q.char = ':' then
          let r := consume_stuff_until isCommaTok false s3
          let cr := consume_comma r.2
          some ((nm, some (GenericBound.mk q r.1), cr.1), cr.2)
        else if q.char = ',' ∨ q.char = '>' then
          let cr := consume_comma (TokenTree.punct q :: s3)
          some ((nm, none, cr.1), cr.2)
        else none
      | _ :: _ => none

/-- The `loop` of `consume_generic_params` (`parse_type.rs` lines 45-101):
parse parameters until the closing angle bracket is peeked; the closer is
recorded but left in the returned stream (the wrapper consumes it). -/
def genericParamsLoop : Nat → List TokenTree →
    Option (Punctuated GenericParam × Punct × List TokenTree)
  | 0, _ => none
  | _ + 1, [] => none
  | fuel + 1, TokenTree.punct p :: rest =>
    if p.char = '>' then some ([], p, TokenTree.punct p :: rest)
    else if p.char = quoteChar then
      match genericParamTail rest with
      | none => none
      | some ((nm, bound, comma), s5) =>
        match genericParamsLoop fuel s5 with
        | none => none
        | some (ps, lt, rem) =>
          some ((GenericParam.mk (some (TokenTree.punct p)) nm bound, comma) :: ps, lt, rem)
    else none
  | fuel + 1, TokenTree.ident w :: rest =>
    if w = "const" then
      match genericParamTail rest with
      | none => none
      | some ((nm, bound, comma), s5) =>
        match genericParamsLoop fuel s5 with
        | none => none
        | some (ps, lt, rem) =>
          some ((GenericParam.mk (some (TokenTree.ident w)) nm bound, comma) :: ps, lt, rem)
    else
      match genericParamTail (TokenTree.ident w :: rest) with
      | none => none
      | some ((nm, bound, comma), s5) =>
        match genericParamsLoop fuel s5 with
        | none => none
        | some (ps, lt, rem) =>
          some ((GenericParam.mk none nm bound, comma) :: ps, lt, rem)
  | _ + 1, _ => none

/-- `consume_generic_params` (`parse_type.rs` lines 30-111): absent unless
the next token is an opening angle bracket; otherwise parse the bracketed
parameter list. -/
def consume_generic_params (s : List TokenTree) :
    Option (Option GenericParamList × List TokenTree) :=
  match s with
  | TokenTree.punct p :: rest =>
    if p.char = '<' then
      match genericParamsLoop (rest.length + 1) rest with
      | none => none
      | some (ps, lt, rem) => some (some (GenericParamList.mk p ps lt), rem.drop 1)
    else some (none, s)
  | _ => some (none, s)

/-- The identifier/binding/rest classification at the tail of
`consume_generic_arg` (`parse_type.rs` lines 146-168). -/
def bindingOrTy : List TokenTree → GenericArg
  | TokenTree.ident x :: TokenTree.punct q :: rest =>
    if q.char = '=' then GenericArg.binding x q (TyExpr.mk rest)
    else GenericArg.tyOrConst (TyExpr.mk (TokenTree.ident x :: TokenTree.punct q :: rest))
  | s => GenericArg.tyOrConst (TyExpr.mk s)

/-- `consume_generic_arg` (`parse_type.rs` lines 113-169): classify one
scanned argument slice; `none` models the panics of the malformed-lifetime
branches. -/
def consume_generic_arg : List TokenTree → Option GenericArg
  | [] => none
  | TokenTree.punct p :: rest =>
    if p.char = quoteChar then
      match rest with
      | [TokenTree.ident x] => some (GenericArg.lifetime p x)
      | _ => none
    else some (bindingOrTy (TokenTree.punct p :: rest))
  | s => some (bindingOrTy s)

/-- The `loop` of `consume_generic_args` (`parse_type.rs` lines 188-203):
scan one argument slice, consume an optional comma, stop at the first empty
slice. The comma consumed together with the final empty slice is returned
separately: the source drops it on the floor. -/
def genericArgsLoop : Nat → List TokenTree →
    Option (Punctuated GenericArg × Option Punct × List TokenTree)
  | 0, _ => none
  | fuel + 1, s =>
    let r := consume_stuff_until isCommaTok false s
    let cr := consume_comma r.2
    match r.1 with
    | [] => some ([], cr.1, cr.2)
    | t :: ts =>
      match consume_generic_arg (t :: ts) with
      | none => none
      | some a =>
        match genericArgsLoop fuel cr.2 with
        | none => none
        | some (args, d, rem) => some ((a, cr.1) :: args, d, rem)

/-- `consume_generic_args` (`parse_type.rs` lines 171-220): speculatively
consume a turbofish double-colon, roll everything back when no opening angle
bracket follows; otherwise parse the argument list and require the closing
angle bracket. -/
def consume_generic_args (s : List TokenTree) :
    Option (Option GenericArgList × List TokenTree) :=
  let tc := try_consume_colon2 s
  match tc.2 with
  | TokenTree.punct p :: rest =>
    if p.char = '<' then
      match genericArgsLoop (rest.length + 1) rest with
      | none => none
      | some (args, _, rem) =>
        match rem with
        | TokenTree.punct q :: rem2 =>
          if q.char = '>' then some (some (GenericArgList.mk tc.1 p args q), rem2)
          else none
        | _ => none
    else some (none, s)
  | _ => some (none, s)

/-- One iteration body of the `consume_where_clause` loop (`parse_type.rs`
lines 243-284): left side up to the colon, the colon, the bound scan, an
optional trailing comma. -/
def whereClauseItemStep (s : List TokenTree) :
    Option ((WhereClauseItem × Option Punct) × List TokenTree) :=
  let ls := consume_stuff_until isColonTok false s
  match ls.2 with
  | TokenTree.punct q :: s2 =>
    if q.char = ':' then
      let bs := consume_stuff_until wherePred true s2
      let cr := consume_comma bs.2
      some ((⟨ls.1, GenericBound.mk q bs.1⟩, cr.1), cr.2)
    else none
  | _ => none

/-- The `loop` of `consume_where_clause` (`parse_type.rs` lines 233-285):
stop when the next token is an opening-brace group or a semicolon; a missing
next token is a fatal abort. -/
def whereClauseLoop : Nat → List TokenTree →
    Option (Punctuated WhereClauseItem × List TokenTree)
  | _, [] => none
  | 0, _ => none
  | fuel + 1, t :: rest =>
    if isBraceGroup t || isSemiTok t then some ([], t :: rest)
    else
      match whereClauseItemStep (t :: rest) with
      | none => none
      | some (ic, s4) =>
        match whereClauseLoop fuel s4 with
        | none => none
        | some (items, rem) => some (ic :: items, rem)

/-- `consume_where_clause` (`parse_type.rs` lines 222-291): absent unless
the next token is the `where` identifier. -/
def consume_where_clause (s : List TokenTree) :
    Option (Option WhereClause × List TokenTree) :=
  match s with
  | TokenTree.ident w :: rest =>
    if w = "where" then
      match whereClauseLoop (rest.length + 1) rest with
      | none => none
      | some (items, rem) => some (some (WhereClause.mk w items), rem)
    else some (none, s)
  | _ => some (none, s)

/-- `consume_field_type` (`parse_type.rs` lines 293-310): scan a field's type
tokens up to a comma; an empty scan is a fatal abort. -/
def consume_field_type (s : List TokenTree) :
    Option (List TokenTree × List TokenTree) :=
  let r := consume_stuff_until isCommaTok false s
  match r.1 with
  | [] => none
  | t :: ts => some (t :: ts, r.2)

/-- `consume_enum_discriminant` (`parse_type.rs` lines 312-339): absent
unless the next token is an equals punctuation; then the equals and exactly
one value token are consumed, and a recoverable error is reported when the
stream neither ends nor continues with a comma. -/
def consume_enum_discriminant (s : List TokenTree) :
    Option (Except Error (Option EnumVariantValue) × List TokenTree) :=
  match s with
  | TokenTree.punct p :: rest =>
    if p.char = '=' then
      match rest with
      | [] => none
      | v :: rest2 =>
        match rest2 with
        | [] => some (Except.ok (some (EnumVariantValue.mk p v)), rest2)
        | t :: _ =>
          if isCommaTok t then some (Except.ok (some (EnumVariantValue.mk p v)), rest2)
          else some (Except.error (Error.mk
            "Complex values for enum variants are not supported unless they are between parentheses."),
            rest2)
    else some (Except.ok none, TokenTree.punct p :: rest)
  | s => some (Except.ok none, s)

/-- The `loop` of `parse_tuple_fields` (`parse_type.rs` lines 345-365). -/
def tupleFieldsLoop : Nat → List TokenTree → Option (Punctuated TupleField)
  | _, [] => some []
  | 0, _ => none
  | fuel + 1, s =>
    let ar := consume_attributes s
    let vr := consume_vis_marker ar.2
    match consume_field_type vr.2 with
    | none => none
    | some (ty, s3) =>
      let cr := consume_comma s3
      match tupleFieldsLoop fuel cr.2 with
      | none => none
      | some fs => some ((TupleField.mk ar.1 vr.1 (TyExpr.mk ty), cr.1) :: fs)

/-- `parse_tuple_fields` (`parse_type.rs` lines 341-371): parse the inner
stream of a parenthesis group into tuple fields, keeping the group's
boundary. -/
def parse_tuple_fields (d : Delim) (inner : List TokenTree) :
    Option TupleStructFields :=
  match tupleFieldsLoop (inner.length + 1) inner with
  | none => none
  | some fs => some (TupleStructFields.mk fs (GroupSpan.mk d))

/-- The `loop` of `parse_named_fields` (`parse_type.rs` lines 377-408). -/
def namedFieldsLoop : Nat → List TokenTree → Option (Punctuated NamedField)
  | _, [] => some []
  | 0, _ => none
  | fuel + 1, s =>
    let ar := consume_attributes s
    let vr := consume_vis_marker ar.2
    match vr.2 with
    | [] => none
    | nameTok :: s2 =>
      match parse_ident nameTok with
      | none => none
      | some nm =>
        match s2 with
        | TokenTree.punct q :: s3 =>
          if q.char = ':' then
            match consume_field_type s3 with
            | none => none
            | some (ty, s4) =>
              let cr := consume_comma s4
              match namedFieldsLoop fuel cr.2 with
              | none => none
              | some fs =>
                some ((NamedField.mk ar.1 vr.1 nm q (TyExpr.mk ty), cr.1) :: fs)
          else none
        | _ => none

/-- `parse_named_fields` (`parse_type.rs` lines 373-414): parse the inner
stream of a brace group into named fields, keeping the group's boundary. -/
def parse_named_fields (d : Delim) (inner : List TokenTree) :
    Option NamedStructFields :=
  match namedFieldsLoop (inner.length + 1) inner with
  | none => none
  | some fs => some (NamedStructFields.mk fs (GroupSpan.mk d))

/-- The variant-contents classification of `parse_enum_variants`
(`parse_type.rs` lines 430-447): peek at the next token; nothing, a comma or
an equals sign leave a unit variant; a parenthesis group parses as tuple
fields; a brace group parses as named fields; anything else is fatal. -/
def enumVariantContents (s : List TokenTree) :
    Option (StructFields × List TokenTree) :=
  match s with
  | [] => some (StructFields.unit, s)
  | TokenTree.punct p :: _ =>
    if p.char = ',' ∨ p.char = '=' then some (StructFields.unit, s) else none
  | TokenTree.group Delim.paren g :: rest =>
    match parse_tuple_fields Delim.paren g with
    | none => none
    | some f => some (StructFields.tuple f, rest)
  | TokenTree.group Delim.brace g :: rest =>
    match parse_named_fields Delim.brace g with
    | none => none
    | some f => some (StructFields.named f, rest)
  | _ => none

/-- The `loop` of `parse_enum_variants` (`parse_type.rs` lines 420-463). A
recoverable discriminant error propagates out through the `?` at the push,
after the trailing comma was already consumed. -/
def enumVariantsLoop : Nat → List TokenTree →
    Option (Except Error (Punctuated EnumVariant))
  | _, [] => some (Except.ok [])
  | 0, _ => none
  | fuel + 1, s =>
    let ar := consume_attributes s
    let vr := consume_vis_marker ar.2
    match vr.2 with
    | [] => none
    | nameTok :: s2 =>
      match parse_ident nameTok with
      | none => none
      | some nm =>
        match enumVariantContents s2 with
        | none => none
        | some (contents, s3) =>
          match consume_enum_discriminant s3 with
          | none => none
          | some (disc, s4) =>
            let cr := consume_comma s4
            match disc with
            | Except.error e => some (Except.error e)
            | Except.ok val =>
              match enumVariantsLoop fuel cr.2 with
              | none => none
              | some (Except.error e) => some (Except.error e)
              | some (Except.ok vs) =>
                some (Except.ok ((EnumVariant.mk ar.1 vr.1 nm contents val, cr.1) :: vs))

/-- `parse_enum_variants` (`parse_type.rs` lines 416-466): parse a whole
token stream as a comma-separated list of enum variants. -/
def parse_enum_variants (s : List TokenTree) :
    Option (Except Error (Punctuated EnumVariant)) :=
  enumVariantsLoop (s.length + 1) s

/-!
## Re-emission

Concatenation of all tokens preserved in a tree fragment, in stored order:
items, separators, punctuation fields and group boundary tokens.
-/

/-- Tokens of an optional separator. -/
def sepToks : Option Punct → List TokenTree
  | none => []
  | some c => [TokenTree.punct c]

/-- Emit a punctuated list: each item's tokens followed by its separator. -/
def emitList {α : Type} (f : α → List TokenTree) : Punctuated α → List TokenTree
  | [] => []
  | (a, sep) :: rest => f a ++ sepToks sep ++ emitList f rest

/-- Emit an attribute list. -/
def emitAttrs : List Attribute → List TokenTree
  | [] => []
  | a :: rest => a.tokens ++ emitAttrs rest

/-- Emit an optional visibility marker. -/
def emitVis : Option VisMarker → List TokenTree
  | none => []
  | some v => v.tokens

/-- Tokens of an optional single token. -/
def optTok : Option TokenTree → List TokenTree
  | none => []
  | some t => [t]

/-- Emit a generic bound: its colon then its raw tokens. -/
def emitGenericBound (b : GenericBound) : List TokenTree :=
  TokenTree.punct b.tk_colon :: b.tokens

/-- Emit an optional generic bound. -/
def emitOptBound : Option GenericBound → List TokenTree
  | none => []
  | some b => emitGenericBound b

/-- Emit a generic parameter: prefix, name, bound. -/
def emitGenericParam (p : GenericParam) : List TokenTree :=
  optTok p.tk_pre ++ [TokenTree.ident p.name] ++ emitOptBound p.bound

/-- Emit a generic parameter list with its bracket tokens. -/
def emitGenericParamList (l : GenericParamList) : List TokenTree :=
  TokenTree.punct l.tk_l_bracket ::
    (emitList emitGenericParam l.params ++ [TokenTree.punct l.tk_r_bracket])

/-- Emit one generic argument. -/
def emitGenericArg : GenericArg → List TokenTree
  | GenericArg.lifetime tk i => [TokenTree.punct tk, TokenTree.ident i]
  | GenericArg.binding i q ty => TokenTree.ident i :: TokenTree.punct q :: ty.tokens
  | GenericArg.tyOrConst e => e.tokens

/-- Tokens of an optional turbofish double-colon. -/
def tfToks : Option (Punct × Punct) → List TokenTree
  | none => []
  | some (a, b) => [TokenTree.punct a, TokenTree.punct b]

/-- Emit a generic argument list: turbofish, brackets, arguments. -/
def emitGenericArgList (l : GenericArgList) : List TokenTree :=
  tfToks l.tk_turbofish_colons ++
    (TokenTree.punct l.tk_l_bracket ::
      (emitList emitGenericArg l.args ++ [TokenTree.punct l.tk_r_bracket]))

/-- Emit a where-clause item: left side, colon, bound tokens. -/
def emitWhereClauseItem (i : WhereClauseItem) : List TokenTree :=
  i.left_side ++ emitGenericBound i.bound

/-- Emit a where clause: the keyword then the items. -/
def emitWhereClause (w : WhereClause) : List TokenTree :=
  TokenTree.ident w.tk_where :: emitList emitWhereClauseItem w.items

/-- Emit a tuple field. -/
def emitTupleField (f : TupleField) : List TokenTree :=
  emitAttrs f.attributes ++ emitVis f.vis_marker ++ f.ty.tokens

/-- Emit a named field. -/
def emitNamedField (f : NamedField) : List TokenTree :=
  emitAttrs f.attributes ++ emitVis f.vis_marker ++
    (TokenTree.ident f.name :: TokenTree.punct f.tk_colon :: f.ty.tokens)

/-- Emit variant contents, restoring the group from its stored boundary. -/
def emitStructFields : StructFields → List TokenTree
  | StructFields.unit => []
  | StructFields.tuple f =>
    [TokenTree.group f.tk_parens.delimiter (emitList emitTupleField f.fields)]
  | StructFields.named f =>
    [TokenTree.group f.tk_braces.delimiter (emitList emitNamedField f.fields)]

/-- Emit an optional discriminant: equals token then the value token. -/
def emitDisc : Option EnumVariantValue → List TokenTree
  | none => []
  | some v => [TokenTree.punct v.tk_equal, v.value]

/-- Emit one enum variant. -/
def emitEnumVariant (v : EnumVariant) : List TokenTree :=
  emitAttrs v.attributes ++ emitVis v.vis_marker ++
    (TokenTree.ident v.name :: (emitStructFields v.contents ++ emitDisc v.value))

/-!
## Helper round-trip lemmas
-/

theorem stuff_go_false_rt (pred : TokenTree → Bool) :
    ∀ (s : List TokenTree) (d : Nat),
      (stuff_until_go pred false d s).1 ++ (stuff_until_go pred false d s).2 = s := by
  intro s
  induction s with
  | nil => intro d; simp [stuff_until_go]
  | cons t rest ih =>
    intro d
    simp only [stuff_until_go]
    by_cases h1 : isLtTok t
    · simp [h1, ih]
    · by_cases h2 : isGtTok t
      · by_cases h3 : d = 0
        · simp [h1, h2, h3]
        · simp [h1, h2, h3, ih]
      · by_cases h3 : d = 0
        · by_cases h4 : pred t
          · simp [h1, h2, h3, h4]
          · simp [h1, h2, h3, h4, ih]
        · simp [h1, h2, h3, ih]

theorem consume_stuff_until_false_rt (pred : TokenTree → Bool) (s : List TokenTree) :
    (consume_stuff_until pred false s).1 ++ (consume_stuff_until pred false s).2 = s :=
  stuff_go_false_rt pred s 0

/-- Outcome specification of an `includeLast` scan: the input splits as the
consumed prefix `pre` followed by the remainder, and the output is `pre`
with a copy of the stopping token appended exactly when the scan stopped on
a non-comma predicate token. -/
def ScanSpec (pred : TokenTree → Bool) (s out rem : List TokenTree) : Prop :=
  ∃ pre, s = pre ++ rem ∧
    ((rem = [] ∧ out = pre) ∨
     (∃ t r', rem = t :: r' ∧
       ((isGtTok t = true ∧ out = pre) ∨
        (isGtTok t = false ∧ isLtTok t = false ∧ pred t = true ∧
         ((isCommaTok t = true ∧ out = pre) ∨
          (isCommaTok t = false ∧ out = pre ++ [t]))))))

theorem ScanSpec.consStep {pred : TokenTree → Bool} {t : TokenTree}
    {rest out rem : List TokenTree} (h : ScanSpec pred rest out rem) :
    ScanSpec pred (t :: rest) (t :: out) rem := by
  obtain ⟨pre, hpre, hdis⟩ := h
  refine ⟨t :: pre, by rw [hpre]; rfl, ?_⟩
  rcases hdis with ⟨hre, hou⟩ | ⟨u, r', hre, hcase⟩
  · exact Or.inl ⟨hre, by rw [hou]⟩
  · refine Or.inr ⟨u, r', hre, ?_⟩
    rcases hcase with ⟨hg, hou⟩ | ⟨hg, hl, hp, hcc⟩
    · exact Or.inl ⟨hg, by rw [hou]⟩
    · refine Or.inr ⟨hg, hl, hp, ?_⟩
      rcases hcc with ⟨hc, hou⟩ | ⟨hc, hou⟩
      · exact Or.inl ⟨hc, by rw [hou]⟩
      · exact Or.inr ⟨hc, by rw [hou]; rfl⟩

/-- Full characterization of an `includeLast` scan. -/
theorem stuff_go_true_spec (pred : TokenTree → Bool) :
    ∀ (s : List TokenTree) (d : Nat) (out rem : List TokenTree),
      stuff_until_go pred true d s = (out, rem) →
      ScanSpec pred s out rem := by
  intro s
  induction s with
  | nil =>
    intro d out rem h
    simp only [stuff_until_go] at h
    injection h with h1 h2
    subst h1; subst h2
    exact ⟨[], rfl, Or.inl ⟨rfl, rfl⟩⟩
  | cons t rest ih =>
    intro d out rem h
    simp only [stuff_until_go] at h
    by_cases h1 : isLtTok t
    · rw [if_pos h1] at h
      injection h with hout hrem
      subst hout; subst hrem
      exact ScanSpec.consStep (ih (d + 1) _ _ rfl)
    · rw [if_neg h1] at h
      by_cases h2 : isGtTok t
      · rw [if_pos h2] at h
        by_cases h3 : d = 0
        · rw [if_pos h3] at h
          injection h with hout hrem
          subst hout; subst hrem
          exact ⟨[], rfl, Or.inr ⟨t, rest, rfl, Or.inl ⟨h2, rfl⟩⟩⟩
        · rw [if_neg h3] at h
          injection h with hout hrem
          subst hout; subst hrem
          exact ScanSpec.consStep (ih (d - 1) _ _ rfl)
      · rw [if_neg h2] at h
        by_cases h3 : d = 0
        · rw [if_pos h3] at h
          by_cases h4 : pred t
          · rw [if_pos h4] at h
            by_cases h5 : isCommaTok t
            · simp [h5] at h
              obtain ⟨hout, hrem⟩ := h
              subst hout; subst hrem
              exact ⟨[], rfl, Or.inr ⟨t, rest, rfl, Or.inr
                ⟨by simpa using h2, by simpa using h1, h4, Or.inl ⟨h5, rfl⟩⟩⟩⟩
            · simp [h5] at h
              obtain ⟨hout, hrem⟩ := h
              subst hout; subst hrem
              exact ⟨[], rfl, Or.inr ⟨t, rest, rfl, Or.inr
                ⟨by simpa using h2, by simpa using h1, h4, Or.inr
                  ⟨by simpa using h5, by simp⟩⟩⟩⟩
          · rw [if_neg h4] at h
            injection h with hout hrem
            subst hout; subst hrem
            exact ScanSpec.consStep (ih d _ _ rfl)
        · rw [if_neg h3] at h
          injection h with hout hrem
          subst hout; subst hrem
          exact ScanSpec.consStep (ih d _ _ rfl)

theorem consume_stuff_until_true_spec (pred : TokenTree → Bool)
    (s out rem : List TokenTree) (h : consume_stuff_until pred true s = (out, rem)) :
    ScanSpec pred s out rem :=
  stuff_go_true_spec pred s 0 out rem h

theorem consume_comma_rt (s : List TokenTree) :
    s = sepToks (consume_comma s).1 ++ (consume_comma s).2 := by
  match s with
  | [] => rfl
  | TokenTree.punct p :: rest =>
    by_cases hc : p.char = ','
    · simp [consume_comma, hc, sepToks]
    · simp [consume_comma, hc, sepToks]
  | TokenTree.ident w :: rest => rfl
  | TokenTree.lit l :: rest => rfl
  | TokenTree.group d g :: rest => rfl

theorem consume_comma_not_comma {t : TokenTree} (rest : List TokenTree)
    (h : isCommaTok t = false) : consume_comma (t :: rest) = (none, t :: rest) := by
  match t with
  | TokenTree.punct p =>
    simp only [isCommaTok, decide_eq_false_iff_not] at h
    simp [consume_comma, h]
  | TokenTree.ident w => rfl
  | TokenTree.lit l => rfl
  | TokenTree.group d g => rfl

theorem consume_comma_some {s : List TokenTree} {c : Punct}
    (h : (consume_comma s).1 = some c) :
    s = TokenTree.punct c :: (consume_comma s).2 ∧ c.char = ',' := by
  match s with
  | [] => simp [consume_comma] at h
  | TokenTree.punct p :: rest =>
    by_cases hc : p.char = ','
    · simp only [consume_comma, hc, if_pos] at h ⊢
      simp only [Option.some.injEq] at h
      subst h
      exact ⟨by simp [hc], hc⟩
    · simp [consume_comma, hc] at h
  | TokenTree.ident w :: rest => simp [consume_comma] at h
  | TokenTree.lit l :: rest => simp [consume_comma] at h
  | TokenTree.group d g :: rest => simp [consume_comma] at h

theorem parse_ident_some {t : TokenTree} {nm : String}
    (h : parse_ident t = some nm) : t = TokenTree.ident nm := by
  match t with
  | TokenTree.ident w => simp only [parse_ident, Option.some.injEq] at h; rw [h]
  | TokenTree.punct p => simp [parse_ident] at h
  | TokenTree.lit l => simp [parse_ident] at h
  | TokenTree.group d g => simp [parse_ident] at h

theorem try_consume_colon2_some {s : List TokenTree} {a b : Punct}
    (h : (try_consume_colon2 s).1 = some (a, b)) :
    s = TokenTree.punct a :: TokenTree.punct b :: (try_consume_colon2 s).2 := by
  match s with
  | TokenTree.punct p1 :: TokenTree.punct p2 :: rest =>
    by_cases hc : (p1.char = ':' && p1.joint && p2.char = ':') = true
    · simp only [try_consume_colon2, hc, if_pos] at h ⊢
      simp only [Option.some.injEq, Prod.mk.injEq] at h
      obtain ⟨h1, h2⟩ := h
      subst h1; subst h2
      simp
    · simp [try_consume_colon2, hc] at h
  | [] => simp [try_consume_colon2] at h
  | [t] => simp [try_consume_colon2] at h
  | TokenTree.punct p1 :: TokenTree.ident w :: rest => simp [try_consume_colon2] at h
  | TokenTree.punct p1 :: TokenTree.lit l :: rest => simp [try_consume_colon2] at h
  | TokenTree.punct p1 :: TokenTree.group d g :: rest => simp [try_consume_colon2] at h
  | TokenTree.ident w :: u :: rest => simp [try_consume_colon2] at h
  | TokenTree.lit l :: u :: rest => simp [try_consume_colon2] at h
  | TokenTree.group d g :: u :: rest => simp [try_consume_colon2] at h

theorem try_consume_colon2_none {s : List TokenTree}
    (h : (try_consume_colon2 s).1 = none) : (try_consume_colon2 s).2 = s := by
  match s with
  | TokenTree.punct p1 :: TokenTree.punct p2 :: rest =>
    by_cases hc : (p1.char = ':' && p1.joint && p2.char = ':') = true
    · simp [try_consume_colon2, hc] at h
    · simp [try_consume_colon2, hc]
  | [] => rfl
  | [t] =>
    match t with
    | TokenTree.punct p => rfl
    | TokenTree.ident w => rfl
    | TokenTree.lit l => rfl
    | TokenTree.group d g => rfl
  | TokenTree.punct p1 :: TokenTree.ident w :: rest => rfl
  | TokenTree.punct p1 :: TokenTree.lit l :: rest => rfl
  | TokenTree.punct p1 :: TokenTree.group d g :: rest => rfl
  | TokenTree.ident w :: u :: rest => rfl
  | TokenTree.lit l :: u :: rest => rfl
  | TokenTree.group d g :: u :: rest => rfl

theorem consume_attributes_rt_fuel :
    ∀ (n : Nat) (s : List TokenTree), s.length ≤ n →
      s = emitAttrs (consume_attributes s).1 ++ (consume_attributes s).2 := by
  intro n
  induction n with
  | zero =>
    intro s h
    match s with
    | [] => rfl
    | _ :: _ => simp at h
  | succ m ih =>
    intro s h
    match s with
    | [] => rfl
    | TokenTree.punct p :: TokenTree.group Delim.bracket g :: rest =>
      by_cases hc : p.char = '#'
      · have hr : rest.length ≤ m := by
          simp only [List.length_cons] at h
          omega
        have := ih rest hr
        simp only [consume_attributes, hc, if_pos, emitAttrs]
        rw [List.append_assoc]
        simp only [List.cons_append, List.nil_append]
        rw [← this]
      · simp [consume_attributes, hc, emitAttrs]
    | TokenTree.punct p :: TokenTree.group Delim.paren g :: rest => rfl
    | TokenTree.punct p :: TokenTree.group Delim.brace g :: rest => rfl
    | TokenTree.punct p :: TokenTree.group Delim.implicitNone g :: rest => rfl
    | TokenTree.punct p :: TokenTree.punct q :: rest => rfl
    | TokenTree.punct p :: TokenTree.ident w :: rest => rfl
    | TokenTree.punct p :: TokenTree.lit l :: rest => rfl
    | [TokenTree.punct p] => rfl
    | TokenTree.ident w :: rest => rfl
    | TokenTree.lit l :: rest => rfl
    | TokenTree.group d g :: rest => rfl

theorem consume_attributes_rt (s : List TokenTree) :
    s = emitAttrs (consume_attributes s).1 ++ (consume_attributes s).2 :=
  consume_attributes_rt_fuel s.length s (Nat.le_refl _)

theorem consume_vis_marker_rt (s : List TokenTree) :
    s = emitVis (consume_vis_marker s).1 ++ (consume_vis_marker s).2 := by
  match s with
  | [] => rfl
  | TokenTree.ident w :: rest =>
    by_cases hw : w = "pub"
    · match rest with
      | TokenTree.group Delim.paren g :: rest2 =>
        simp [consume_vis_marker, hw, emitVis]
      | [] => simp [consume_vis_marker, hw, emitVis]
      | TokenTree.group Delim.brace g :: rest2 =>
        simp [consume_vis_marker, hw, emitVis]
      | TokenTree.group Delim.bracket g :: rest2 =>
        simp [consume_vis_marker, hw, emitVis]
      | TokenTree.group Delim.implicitNone g :: rest2 =>
        simp [consume_vis_marker, hw, emitVis]
      | TokenTree.ident w2 :: rest2 => simp [consume_vis_marker, hw, emitVis]
      | TokenTree.punct q :: rest2 => simp [consume_vis_marker, hw, emitVis]
      | TokenTree.lit l :: rest2 => simp [consume_vis_marker, hw, emitVis]
    · simp [consume_vis_marker, hw, emitVis]
  | TokenTree.punct p :: rest => rfl
  | TokenTree.lit l :: rest => rfl
  | TokenTree.group d g :: rest => rfl

theorem consume_field_type_rt {s ty rem : List TokenTree}
    (h : consume_field_type s = some (ty, rem)) : s = ty ++ rem := by
  have hrt := consume_stuff_until_false_rt isCommaTok s
  simp only [consume_field_type] at h
  match hm : (consume_stuff_until isCommaTok false s).1 with
  | [] => rw [hm] at h; simp at h
  | t :: ts =>
    rw [hm] at h hrt
    simp only [Option.some.injEq, Prod.mk.injEq] at h
    obtain ⟨h1, h2⟩ := h
    subst h1
    subst h2
    exact hrt.symm

theorem consume_enum_discriminant_ok_rt {s rem : List TokenTree}
    {v : Option EnumVariantValue}
    (h : consume_enum_discriminant s = some (Except.ok v, rem)) :
    s = emitDisc v ++ rem := by
  match s with
  | [] =>
    simp only [consume_enum_discriminant, Option.some.injEq, Prod.mk.injEq] at h
    obtain ⟨h1, h2⟩ := h
    have : v = none := by
      cases v with
      | none => rfl
      | some x => simp at h1
    subst this
    simp [emitDisc, h2]
  | TokenTree.punct p :: rest =>
    by_cases hc : p.char = '='
    · match rest with
      | [] => simp [consume_enum_discriminant, hc] at h
      | w :: rest2 =>
        match rest2 with
        | [] =>
          simp only [consume_enum_discriminant, hc, if_pos, Option.some.injEq,
            Prod.mk.injEq] at h
          obtain ⟨h1, h2⟩ := h
          have : v = some (EnumVariantValue.mk p w) := by
            cases v with
            | none => simp at h1
            | some x =>
              simp only [Except.ok.injEq, Option.some.injEq] at h1
              exact congrArg some h1.symm
          subst this
          subst h2
          simp [emitDisc]
        | t :: r3 =>
          by_cases ht : isCommaTok t
          · simp only [consume_enum_discriminant, hc, if_pos, ht, if_true,
              Option.some.injEq, Prod.mk.injEq] at h
            obtain ⟨h1, h2⟩ := h
            have : v = some (EnumVariantValue.mk p w) := by
              cases v with
              | none => simp at h1
              | some x =>
                simp only [Except.ok.injEq, Option.some.injEq] at h1
                exact congrArg some h1.symm
            subst this
            subst h2
            simp [emitDisc]
          · simp only [consume_enum_discriminant, hc, if_pos, ht, if_false,
              Bool.false_eq_true, Option.some.injEq, Prod.mk.injEq] at h
            obtain ⟨h1, h2⟩ := h
            simp at h1
    · simp only [consume_enum_discriminant, hc, if_neg, if_false,
        Option.some.injEq, Prod.mk.injEq] at h
      obtain ⟨h1, h2⟩ := h
      have : v = none := by
        cases v with
        | none => rfl
        | some x => simp at h1
      subst this
      simp [emitDisc, h2]
  | TokenTree.ident w :: rest =>
    simp only [consume_enum_discriminant, Option.some.injEq, Prod.mk.injEq] at h
    obtain ⟨h1, h2⟩ := h
    have : v = none := by
      cases v with
      | none => rfl
      | some x => simp at h1
    subst this
    simp [emitDisc, h2]
  | TokenTree.lit l :: rest =>
    simp only [consume_enum_discriminant, Option.some.injEq, Prod.mk.injEq] at h
    obtain ⟨h1, h2⟩ := h
    have : v = none := by
      cases v with
      | none => rfl
      | some x => simp at h1
    subst this
    simp [emitDisc, h2]
  | TokenTree.group d g :: rest =>
    simp only [consume_enum_discriminant, Option.some.injEq, Prod.mk.injEq] at h
    obtain ⟨h1, h2⟩ := h
    have : v = none := by
      cases v with
      | none => rfl
      | some x => simp at h1
    subst this
    simp [emitDisc, h2]

theorem genericParamTail_rt {s : List TokenTree} {nm : String}
    {bound : Option GenericBound} {comma : Option Punct} {s5 : List TokenTree}
    (h : genericParamTail s = some ((nm, bound, comma), s5)) :
    s = TokenTree.ident nm :: (emitOptBound bound ++ (sepToks comma ++ s5)) := by
  match s with
  | [] => simp [genericParamTail] at h
  | nameTok :: s2 =>
    match hpi : parse_ident nameTok with
    | none => simp [genericParamTail, hpi] at h
    | some nm0 =>
      have hid := parse_ident_some hpi
      subst hid
      match s2 with
      | [] => simp [genericParamTail, hpi] at h
      | TokenTree.punct q :: s3 =>
        simp only [genericParamTail, hpi] at h
        by_cases hq : q.char = ':'
        · rw [if_pos hq] at h
          simp only [Option.some.injEq, Prod.mk.injEq] at h
          obtain ⟨⟨h1, h2, h3⟩, h4⟩ := h
          subst h1; subst h2; subst h3; subst h4
          have hscan := consume_stuff_until_false_rt isCommaTok s3
          have hcr := consume_comma_rt (consume_stuff_until isCommaTok false s3).2
          simp only [emitOptBound, emitGenericBound, List.cons_append, List.cons.injEq,
            true_and]
          rw [← hcr, hscan]
        · rw [if_neg hq] at h
          by_cases hq2 : q.char = ',' ∨ q.char = '>'
          · rw [if_pos hq2] at h
            simp only [Option.some.injEq, Prod.mk.injEq] at h
            obtain ⟨⟨h1, h2, h3⟩, h4⟩ := h
            subst h1; subst h2; subst h3; subst h4
            have hcr := consume_comma_rt (TokenTree.punct q :: s3)
            simp only [emitOptBound, List.nil_append]
            rw [← hcr]
          · rw [if_neg hq2] at h
            simp at h
      | TokenTree.ident w2 :: s3 => simp [genericParamTail, hpi] at h
      | TokenTree.lit l :: s3 => simp [genericParamTail, hpi] at h
      | TokenTree.group d g :: s3 => simp [genericParamTail, hpi] at h

theorem genericParamsLoop_rt :
    ∀ (fuel : Nat) (s : List TokenTree) (ps : Punctuated GenericParam)
      (lt : Punct) (rem : List TokenTree),
      genericParamsLoop fuel s = some (ps, lt, rem) →
      s = emitList emitGenericParam ps ++ rem ∧
        ∃ r', rem = TokenTree.punct lt :: r' := by
  intro fuel
  induction fuel with
  | zero => intro s ps lt rem h; simp [genericParamsLoop] at h
  | succ m ih =>
    intro s ps lt rem h
    match s with
    | [] => simp [genericParamsLoop] at h
    | TokenTree.punct p :: rest =>
      simp only [genericParamsLoop] at h
      by_cases hp : p.char = '>'
      · rw [if_pos hp] at h
        simp only [Option.some.injEq, Prod.mk.injEq] at h
        obtain ⟨h1, h2, h3⟩ := h
        subst h1; subst h2; subst h3
        exact ⟨by simp [emitList], rest, rfl⟩
      · rw [if_neg hp] at h
        by_cases hq : p.char = quoteChar
        · rw [if_pos hq] at h
          match hgt : genericParamTail rest with
          | none => simp only [hgt] at h; simp at h
          | some ((nm, bound, comma), s5) =>
            simp only [hgt] at h
            match hrec : genericParamsLoop m s5 with
            | none => simp only [hrec] at h; simp at h
            | some (ps2, lt2, rem2) =>
              simp only [hrec] at h
              simp only [Option.some.injEq, Prod.mk.injEq] at h
              obtain ⟨h1, h2, h3⟩ := h
              subst h1; subst h2; subst h3
              obtain ⟨hrt, r', hr'⟩ := ih s5 ps2 lt2 rem2 hrec
              have htail := genericParamTail_rt hgt
              refine ⟨?_, r', hr'⟩
              rw [htail, hrt]
              simp [emitList, emitGenericParam, optTok]
        · rw [if_neg hq] at h
          simp at h
    | TokenTree.ident w :: rest =>
      simp only [genericParamsLoop] at h
      by_cases hw : w = "const"
      · rw [if_pos hw] at h
        match hgt : genericParamTail rest with
        | none => simp only [hgt] at h; simp at h
        | some ((nm, bound, comma), s5) =>
          simp only [hgt] at h
          match hrec : genericParamsLoop m s5 with
          | none => simp only [hrec] at h; simp at h
          | some (ps2, lt2, rem2) =>
            simp only [hrec] at h
            simp only [Option.some.injEq, Prod.mk.injEq] at h
            obtain ⟨h1, h2, h3⟩ := h
            subst h1; subst h2; subst h3
            obtain ⟨hrt, r', hr'⟩ := ih s5 ps2 lt2 rem2 hrec
            have htail := genericParamTail_rt hgt
            refine ⟨?_, r', hr'⟩
            rw [htail, hrt]
            simp [emitList, emitGenericParam, optTok]
      · rw [if_neg hw] at h
        match hgt : genericParamTail (TokenTree.ident w :: rest) with
        | none => simp only [hgt] at h; simp at h
        | some ((nm, bound, comma), s5) =>
          simp only [hgt] at h
          match hrec : genericParamsLoop m s5 with
          | none => simp only [hrec] at h; simp at h
          | some (ps2, lt2, rem2) =>
            simp only [hrec] at h
            simp only [Option.some.injEq, Prod.mk.injEq] at h
            obtain ⟨h1, h2, h3⟩ := h
            subst h1; subst h2; subst h3
            obtain ⟨hrt, r', hr'⟩ := ih s5 ps2 lt2 rem2 hrec
            have htail := genericParamTail_rt hgt
            refine ⟨?_, r', hr'⟩
            rw [htail, hrt]
            simp [emitList, emitGenericParam, optTok]
    | TokenTree.lit l :: rest => simp [genericParamsLoop] at h
    | TokenTree.group d g :: rest => simp [genericParamsLoop] at h

theorem consume_generic_params_rt {s rem : List TokenTree} {gpl : GenericParamList}
    (h : consume_generic_params s = some (some gpl, rem)) :
    s = emitGenericParamList gpl ++ rem := by
  match s with
  | [] => simp [consume_generic_params] at h
  | TokenTree.ident w :: rest => simp [consume_generic_params] at h
  | TokenTree.lit l :: rest => simp [consume_generic_params] at h
  | TokenTree.group d g :: rest => simp [consume_generic_params] at h
  | TokenTree.punct p :: rest =>
    simp only [consume_generic_params] at h
    by_cases hp : p.char = '<'
    · rw [if_pos hp] at h
      match hl : genericParamsLoop (rest.length + 1) rest with
      | none => simp only [hl] at h; simp at h
      | some (ps, lt, rem0) =>
        simp only [hl] at h
        simp only [Option.some.injEq, Prod.mk.injEq] at h
        obtain ⟨h1, h2⟩ := h
        subst h1; subst h2
        obtain ⟨hrt, r', hr'⟩ := genericParamsLoop_rt (rest.length + 1) rest ps lt rem0 hl
        rw [hr'] at hrt
        rw [hr']
        simp only [List.drop_succ_cons, List.drop_zero]
        rw [emitGenericParamList, hrt]
        simp
    · rw [if_neg hp] at h
      simp at h

theorem bindingOrTy_emit : ∀ s : List TokenTree, emitGenericArg (bindingOrTy s) = s := by
  intro s
  match s with
  | TokenTree.ident x :: TokenTree.punct q :: rest =>
    by_cases hq : q.char = '='
    · simp [bindingOrTy, hq, emitGenericArg]
    · simp [bindingOrTy, hq, emitGenericArg]
  | [] => rfl
  | [TokenTree.ident x] => rfl
  | TokenTree.ident x :: TokenTree.ident y :: rest => rfl
  | TokenTree.ident x :: TokenTree.lit l :: rest => rfl
  | TokenTree.ident x :: TokenTree.group d g :: rest => rfl
  | TokenTree.punct q :: rest => rfl
  | TokenTree.lit l :: rest => rfl
  | TokenTree.group d g :: rest => rfl

theorem consume_generic_arg_emit {ts : List TokenTree} {a : GenericArg}
    (h : consume_generic_arg ts = some a) : emitGenericArg a = ts := by
  match ts with
  | [] => simp [consume_generic_arg] at h
  | TokenTree.punct p :: rest =>
    simp only [consume_generic_arg] at h
    by_cases hq : p.char = quoteChar
    · rw [if_pos hq] at h
      match rest with
      | [TokenTree.ident x] =>
        simp only [Option.some.injEq] at h
        subst h
        rfl
      | [] => simp at h
      | [TokenTree.punct q] => simp at h
      | [TokenTree.lit l] => simp at h
      | [TokenTree.group d g] => simp at h
      | TokenTree.ident x :: u :: more => simp at h
      | TokenTree.punct q :: u :: more => simp at h
      | TokenTree.lit l :: u :: more => simp at h
      | TokenTree.group d g :: u :: more => simp at h
    · rw [if_neg hq] at h
      simp only [Option.some.injEq] at h
      subst h
      exact bindingOrTy_emit _
  | TokenTree.ident x :: rest =>
    simp only [consume_generic_arg, Option.some.injEq] at h
    subst h
    exact bindingOrTy_emit _
  | TokenTree.lit l :: rest =>
    simp only [consume_generic_arg, Option.some.injEq] at h
    subst h
    exact bindingOrTy_emit _
  | TokenTree.group d g :: rest =>
    simp only [consume_generic_arg, Option.some.injEq] at h
    subst h
    exact bindingOrTy_emit _

theorem genericArgsLoop_rt :
    ∀ (fuel : Nat) (s : List TokenTree) (args : Punctuated GenericArg)
      (d : Option Punct) (rem : List TokenTree),
      genericArgsLoop fuel s = some (args, d, rem) →
      s = emitList emitGenericArg args ++ (sepToks d ++ rem) := by
  intro fuel
  induction fuel with
  | zero => intro s args d rem h; simp [genericArgsLoop] at h
  | succ m ih =>
    intro s args d rem h
    simp only [genericArgsLoop] at h
    have hscan := consume_stuff_until_false_rt isCommaTok s
    have hcr := consume_comma_rt (consume_stuff_until isCommaTok false s).2
    match hm : (consume_stuff_until isCommaTok false s).1 with
    | [] =>
      simp only [hm] at h
      simp only [Option.some.injEq, Prod.mk.injEq] at h
      obtain ⟨h1, h2, h3⟩ := h
      subst h1; subst h2; subst h3
      simp only [emitList, List.nil_append]
      rw [← hcr]
      rw [hm] at hscan
      simpa using hscan.symm
    | t :: ts =>
      simp only [hm] at h
      match hca : consume_generic_arg (t :: ts) with
      | none => simp only [hca] at h; simp at h
      | some a =>
        simp only [hca] at h
        match hrec : genericArgsLoop m
            (consume_comma (consume_stuff_until isCommaTok false s).2).2 with
        | none => simp only [hrec] at h; simp at h
        | some (args2, d2, rem2) =>
          simp only [hrec] at h
          simp only [Option.some.injEq, Prod.mk.injEq] at h
          obtain ⟨h1, h2, h3⟩ := h
          subst h1; subst h2; subst h3
          have hih := ih _ args2 d2 rem2 hrec
          have hemit := consume_generic_arg_emit hca
          rw [hm] at hscan
          have hgoal : emitList emitGenericArg
                ((a, (consume_comma (consume_stuff_until isCommaTok false s).2).1) :: args2)
                ++ (sepToks d2 ++ rem2)
              = (t :: ts) ++
                (sepToks (consume_comma (consume_stuff_until isCommaTok false s).2).1 ++
                  (consume_comma (consume_stuff_until isCommaTok false s).2).2) := by
            rw [hih]
            simp [emitList, hemit]
          rw [hgoal, ← hcr]
          exact hscan.symm

theorem try_consume_colon2_rt (s : List TokenTree) :
    s = tfToks (try_consume_colon2 s).1 ++ (try_consume_colon2 s).2 := by
  match hc : (try_consume_colon2 s).1 with
  | some (a, b) => simpa [tfToks] using try_consume_colon2_some hc
  | none => simp [tfToks, try_consume_colon2_none hc]

theorem consume_generic_args_rt {s rem : List TokenTree} {gal : GenericArgList}
    (h : consume_generic_args s = some (some gal, rem)) :
    ∃ extra : Option Punct,
      s = tfToks gal.tk_turbofish_colons ++
        (TokenTree.punct gal.tk_l_bracket ::
          (emitList emitGenericArg gal.args ++ (sepToks extra ++
            (TokenTree.punct gal.tk_r_bracket :: rem)))) := by
  have htf := try_consume_colon2_rt s
  match htc : (try_consume_colon2 s).2 with
  | [] => simp [consume_generic_args, htc] at h
  | TokenTree.ident w :: rest => simp [consume_generic_args, htc] at h
  | TokenTree.lit l :: rest => simp [consume_generic_args, htc] at h
  | TokenTree.group d g :: rest => simp [consume_generic_args, htc] at h
  | TokenTree.punct p :: rest =>
    simp only [consume_generic_args, htc] at h
    by_cases hp : p.char = '<'
    · rw [if_pos hp] at h
      match hl : genericArgsLoop (rest.length + 1) rest with
      | none => simp only [hl] at h; simp at h
      | some (args, dd, []) => simp only [hl] at h; simp at h
      | some (args, dd, TokenTree.ident w :: rem2) => simp only [hl] at h; simp at h
      | some (args, dd, TokenTree.lit l :: rem2) => simp only [hl] at h; simp at h
      | some (args, dd, TokenTree.group d g :: rem2) => simp only [hl] at h; simp at h
      | some (args, dd, TokenTree.punct q :: rem2) =>
        simp only [hl] at h
        by_cases hq : q.char = '>'
        · rw [if_pos hq] at h
          simp only [Option.some.injEq, Prod.mk.injEq] at h
          obtain ⟨h1, h2⟩ := h
          subst h1; subst h2
          refine ⟨dd, ?_⟩
          have hloop := genericArgsLoop_rt (rest.length + 1) rest args dd _ hl
          show s = tfToks (try_consume_colon2 s).1 ++
            (TokenTree.punct p :: (emitList emitGenericArg args ++
              (sepToks dd ++ (TokenTree.punct q :: rem2))))
          rw [← hloop]
          conv_lhs => rw [htf, htc]
        · rw [if_neg hq] at h
          simp at h
    · rw [if_neg hp] at h
      simp at h

theorem isCommaTok_shape {t : TokenTree} (h : isCommaTok t = true) :
    ∃ c : Punct, t = TokenTree.punct c ∧ c.char = ',' := by
  match t with
  | TokenTree.punct p =>
    refine ⟨p, rfl, ?_⟩
    simpa [isCommaTok] using h
  | TokenTree.ident w => simp [isCommaTok] at h
  | TokenTree.lit l => simp [isCommaTok] at h
  | TokenTree.group d g => simp [isCommaTok] at h

theorem isGtTok_class {t : TokenTree} (h : isGtTok t = true) :
    isCommaTok t = false ∧ isBraceGroup t = false ∧ isSemiTok t = false := by
  match t with
  | TokenTree.punct p =>
    simp only [isGtTok, decide_eq_true_eq] at h
    simp [isCommaTok, isBraceGroup, isSemiTok, h]
  | TokenTree.ident w => simp [isGtTok] at h
  | TokenTree.lit l => simp [isGtTok] at h
  | TokenTree.group d g => simp [isGtTok] at h

theorem whereClauseItemStep_spec {s : List TokenTree} {item : WhereClauseItem}
    {sep : Option Punct} {rem : List TokenTree}
    (h : whereClauseItemStep s = some ((item, sep), rem)) :
    (∀ c : Punct, sep = some c →
      s = item.left_side ++ (TokenTree.punct item.bound.tk_colon ::
        (item.bound.tokens ++ (TokenTree.punct c :: rem))))
    ∧ (sep = none → rem = [] →
        s = item.left_side ++ (TokenTree.punct item.bound.tk_colon ::
          item.bound.tokens))
    ∧ (sep = none → ∀ t r', rem = t :: r' →
        (isBraceGroup t || isSemiTok t) = true →
        ∃ front, item.bound.tokens = front ++ [t] ∧
          s = item.left_side ++ (TokenTree.punct item.bound.tk_colon ::
            (front ++ rem)))
    ∧ (sep = none → ∀ t r', rem = t :: r' →
        (isBraceGroup t || isSemiTok t) = false →
        s = item.left_side ++ (TokenTree.punct item.bound.tk_colon ::
          (item.bound.tokens ++ rem))) := by
  have hls := consume_stuff_until_false_rt isColonTok s
  match hls2 : (consume_stuff_until isColonTok false s).2 with
  | [] => simp [whereClauseItemStep, hls2] at h
  | TokenTree.ident w :: s2 => simp [whereClauseItemStep, hls2] at h
  | TokenTree.lit l :: s2 => simp [whereClauseItemStep, hls2] at h
  | TokenTree.group d g :: s2 => simp [whereClauseItemStep, hls2] at h
  | TokenTree.punct q :: s2 =>
    simp only [whereClauseItemStep, hls2] at h
    by_cases hq : q.char = ':'
    · rw [if_pos hq] at h
      simp only [Option.some.injEq, Prod.mk.injEq] at h
      obtain ⟨⟨h1, h2⟩, h3⟩ := h
      have hL : item.left_side = (consume_stuff_until isColonTok false s).1 := by
        rw [← h1]
      have hC : item.bound.tk_colon = q := by rw [← h1]
      have hB : item.bound.tokens = (consume_stuff_until wherePred true s2).1 := by
        rw [← h1]
      rw [hls2] at hls
      have hpair : consume_stuff_until wherePred true s2 =
          ((consume_stuff_until wherePred true s2).1,
           (consume_stuff_until wherePred true s2).2) := rfl
      obtain ⟨pre, hpre, hdis⟩ := consume_stuff_until_true_spec wherePred s2 _ _ hpair
      rcases hdis with ⟨hbrem, hout⟩ | ⟨t, r', hbrem, hcase⟩
      · -- scan hit end of stream: no separator, empty remainder
        rw [hbrem] at hpre
        have hcc : consume_comma (consume_stuff_until wherePred true s2).2 =
            (none, []) := by rw [hbrem]; rfl
        rw [hcc] at h2 h3
        refine ⟨?_, ?_, ?_, ?_⟩
        · intro c hc; rw [← h2] at hc; exact absurd hc (by simp)
        · intro _ _
          rw [hL, hC, hB, hout]
          conv_lhs => rw [← hls]
          rw [hpre]
          simp
        · intro _ t r' hr
          rw [← h3] at hr
          exact absurd hr (by simp)
        · intro _ t r' hr
          rw [← h3] at hr
          exact absurd hr (by simp)
      · rcases hcase with ⟨hgt, hout⟩ | ⟨hgt, hlt, hpred, hcc⟩
        · -- scan stopped at an unmatched closing angle bracket
          obtain ⟨hc1, hc2, hc3⟩ := isGtTok_class hgt
          have hcomma : consume_comma (consume_stuff_until wherePred true s2).2 =
              (none, (consume_stuff_until wherePred true s2).2) := by
            rw [hbrem]
            exact consume_comma_not_comma r' hc1
          rw [hcomma] at h2 h3
          refine ⟨?_, ?_, ?_, ?_⟩
          · intro c hc; rw [← h2] at hc; exact absurd hc (by simp)
          · intro _ hr
            rw [← h3, hbrem] at hr
            exact absurd hr (by simp)
          · intro _ u r2 hr hbs
            rw [← h3, hbrem] at hr
            obtain ⟨hu, _⟩ := List.cons.injEq .. ▸ hr
            exact absurd hbs (by rw [← hu]; simp [hc2, hc3])
          · intro _ u r2 hr _
            have hrem : rem = t :: r' := by rw [← h3]; exact hbrem
            rw [hL, hC, hB, hout, hrem]
            conv_lhs => rw [← hls]
            rw [hpre, hbrem]
        · rcases hcc with ⟨hcm, hout⟩ | ⟨hcm, hout⟩
          · -- scan stopped at a comma: it becomes the separator
            obtain ⟨c, hct, hcchar⟩ := isCommaTok_shape hcm
            have hcomma : consume_comma (consume_stuff_until wherePred true s2).2 =
                (some c, r') := by
              rw [hbrem, hct]
              simp [consume_comma, hcchar]
            rw [hcomma] at h2 h3
            refine ⟨?_, ?_, ?_, ?_⟩
            · intro c2 hc
              rw [← h2] at hc
              simp only [Option.some.injEq] at hc
              subst hc
              have hrem : rem = r' := h3.symm
              rw [hL, hC, hB, hout, hrem]
              conv_lhs => rw [← hls]
              rw [hpre, hbrem, hct]
            · intro hc; rw [← h2] at hc; exact absurd hc (by simp)
            · intro hc; rw [← h2] at hc; exact absurd hc (by simp)
            · intro hc; rw [← h2] at hc; exact absurd hc (by simp)
          · -- scan stopped at a brace group or semicolon: copied into the bound
            have hbs : (isBraceGroup t || isSemiTok t) = true := by
              have : wherePred t = true := hpred
              simp only [wherePred, hcm, Bool.false_or] at this
              exact this
            have hcomma : consume_comma (consume_stuff_until wherePred true s2).2 =
                (none, (consume_stuff_until wherePred true s2).2) := by
              rw [hbrem]
              exact consume_comma_not_comma r' hcm
            rw [hcomma] at h2 h3
            refine ⟨?_, ?_, ?_, ?_⟩
            · intro c hc; rw [← h2] at hc; exact absurd hc (by simp)
            · intro _ hr
              rw [← h3, hbrem] at hr
              exact absurd hr (by simp)
            · intro _ u r2 hr _
              have hrem : rem = t :: r' := by rw [← h3]; exact hbrem
              rw [hrem] at hr
              obtain ⟨hu, _⟩ := List.cons.injEq .. ▸ hr
              refine ⟨pre, ?_, ?_⟩
              · rw [hB, hout, hu]
              · rw [hL, hC, hrem]
                conv_lhs => rw [← hls]
                rw [hpre, hbrem]
            · intro _ u r2 hr hbs2
              rw [← h3, hbrem] at hr
              obtain ⟨hu, _⟩ := List.cons.injEq .. ▸ hr
              rw [← hu] at hbs2
              rw [hbs] at hbs2
              exact absurd hbs2 (by simp)
    · rw [if_neg hq] at h
      simp at h

theorem whereClauseLoop_rt :
    ∀ (fuel : Nat) (s : List TokenTree) (items : Punctuated WhereClauseItem)
      (rem : List TokenTree),
      whereClauseLoop fuel s = some (items, rem) →
      ∃ pre, s = pre ++ rem ∧
        (emitList emitWhereClauseItem items = pre ∨
         ∃ t r', rem = t :: r' ∧
           emitList emitWhereClauseItem items = pre ++ [t]) := by
  intro fuel
  induction fuel with
  | zero =>
    intro s items rem h
    match s with
    | [] => simp [whereClauseLoop] at h
    | t :: rest => simp [whereClauseLoop] at h
  | succ m ih =>
    intro s items rem h
    match s with
    | [] => simp [whereClauseLoop] at h
    | t :: rest =>
      simp only [whereClauseLoop] at h
      by_cases hb : (isBraceGroup t || isSemiTok t) = true
      · rw [if_pos hb] at h
        simp only [Option.some.injEq, Prod.mk.injEq] at h
        obtain ⟨h1, h2⟩ := h
        subst h1; subst h2
        exact ⟨[], rfl, Or.inl (by simp [emitList])⟩
      · rw [if_neg hb] at h
        match hstep : whereClauseItemStep (t :: rest) with
        | none => simp only [hstep] at h; simp at h
        | some ((item, sep), s4) =>
          simp only [hstep] at h
          match hrec : whereClauseLoop m s4 with
          | none => simp only [hrec] at h; simp at h
          | some (items2, rem2) =>
            simp only [hrec] at h
            simp only [Option.some.injEq, Prod.mk.injEq] at h
            obtain ⟨h1, h2⟩ := h
            subst h1; subst h2
            obtain ⟨hcomma, hend, hcopy, hclean⟩ := whereClauseItemStep_spec hstep
            match hsep : sep with
            | some c =>
              have hstream := hcomma c rfl
              obtain ⟨pre2, hpre2, hdis2⟩ := ih s4 items2 rem2 hrec
              refine ⟨item.left_side ++ (TokenTree.punct item.bound.tk_colon ::
                (item.bound.tokens ++ (TokenTree.punct c :: pre2))), ?_, ?_⟩
              · rw [hstream, hpre2]
                simp
              · rcases hdis2 with hy | ⟨u, r', hru, hy⟩
                · refine Or.inl ?_
                  simp [emitList, emitWhereClauseItem, emitGenericBound, sepToks, hy]
                · refine Or.inr ⟨u, r', hru, ?_⟩
                  simp [emitList, emitWhereClauseItem, emitGenericBound, sepToks, hy]
            | none =>
              match s4 with
              | [] => simp [whereClauseLoop] at hrec
              | u :: r4 =>
                by_cases hbu : (isBraceGroup u || isSemiTok u) = true
                · -- the bound scan stopped at the loop's own terminator
                  obtain ⟨front, hfront, hstream⟩ := hcopy rfl u r4 rfl hbu
                  match m, hrec with
                  | 0, hrec => simp [whereClauseLoop] at hrec
                  | m' + 1, hrec =>
                    have heval : whereClauseLoop (m' + 1) (u :: r4) =
                        some ([], u :: r4) := by
                      simp [whereClauseLoop, hbu]
                    rw [heval] at hrec
                    simp only [Option.some.injEq, Prod.mk.injEq] at hrec
                    obtain ⟨hi2, hr2⟩ := hrec
                    subst hi2
                    refine ⟨item.left_side ++ (TokenTree.punct item.bound.tk_colon ::
                      front), ?_, ?_⟩
                    · rw [hstream, ← hr2]
                      simp
                    · refine Or.inr ⟨u, r4, by rw [← hr2], ?_⟩
                      simp [emitList, emitWhereClauseItem, emitGenericBound, sepToks,
                        hfront]
                · have hstream := hclean rfl u r4 rfl (by simpa using hbu)
                  obtain ⟨pre2, hpre2, hdis2⟩ := ih (u :: r4) items2 rem2 hrec
                  refine ⟨item.left_side ++ (TokenTree.punct item.bound.tk_colon ::
                    (item.bound.tokens ++ pre2)), ?_, ?_⟩
                  · rw [hstream, hpre2]
                    simp
                  · rcases hdis2 with hy | ⟨u2, r2', hru, hy⟩
                    · refine Or.inl ?_
                      simp [emitList, emitWhereClauseItem, emitGenericBound, sepToks, hy]
                    · refine Or.inr ⟨u2, r2', hru, ?_⟩
                      simp [emitList, emitWhereClauseItem, emitGenericBound, sepToks, hy]

theorem consume_where_clause_rt {s rem : List TokenTree} {wc : WhereClause}
    (h : consume_where_clause s = some (some wc, rem)) :
    ∃ pre, s = pre ++ rem ∧
      (emitWhereClause wc = pre ∨
       ∃ t r', rem = t :: r' ∧ emitWhereClause wc = pre ++ [t]) := by
  match s with
  | [] => simp [consume_where_clause] at h
  | TokenTree.punct p :: rest => simp [consume_where_clause] at h
  | TokenTree.lit l :: rest => simp [consume_where_clause] at h
  | TokenTree.group d g :: rest => simp [consume_where_clause] at h
  | TokenTree.ident w :: rest =>
    simp only [consume_where_clause] at h
    by_cases hw : w = "where"
    · rw [if_pos hw] at h
      match hl : whereClauseLoop (rest.length + 1) rest with
      | none => simp only [hl] at h; simp at h
      | some (items, rem0) =>
        simp only [hl] at h
        simp only [Option.some.injEq, Prod.mk.injEq] at h
        obtain ⟨h1, h2⟩ := h
        subst h1; subst h2
        obtain ⟨pre0, hpre0, hdis⟩ := whereClauseLoop_rt (rest.length + 1) rest items rem0 hl
        refine ⟨TokenTree.ident w :: pre0, by rw [hpre0]; rfl, ?_⟩
        rcases hdis with hy | ⟨t, r', hrt, hy⟩
        · exact Or.inl (by simp [emitWhereClause, hy])
        · exact Or.inr ⟨t, r', hrt, by simp [emitWhereClause, hy]⟩
    · rw [if_neg hw] at h
      simp at h

theorem tupleFieldsLoop_rt :
    ∀ (fuel : Nat) (s : List TokenTree) (fs : Punctuated TupleField),
      tupleFieldsLoop fuel s = some fs →
      s = emitList emitTupleField fs := by
  intro fuel
  induction fuel with
  | zero =>
    intro s fs h
    match s with
    | [] =>
      simp only [tupleFieldsLoop, Option.some.injEq] at h
      subst h
      rfl
    | t :: rest => simp [tupleFieldsLoop] at h
  | succ m ih =>
    intro s fs h
    match s with
    | [] =>
      simp only [tupleFieldsLoop, Option.some.injEq] at h
      subst h
      rfl
    | t :: rest =>
      simp only [tupleFieldsLoop] at h
      have har := consume_attributes_rt (t :: rest)
      have hvr := consume_vis_marker_rt (consume_attributes (t :: rest)).2
      match hft : consume_field_type
          (consume_vis_marker (consume_attributes (t :: rest)).2).2 with
      | none => simp only [hft] at h; simp at h
      | some (ty, s3) =>
        simp only [hft] at h
        have hty := consume_field_type_rt hft
        have hcr := consume_comma_rt s3
        match hrec : tupleFieldsLoop m (consume_comma s3).2 with
        | none => simp only [hrec] at h; simp at h
        | some fs2 =>
          simp only [hrec] at h
          simp only [Option.some.injEq] at h
          subst h
          have hihr := ih _ fs2 hrec
          rw [hvr, hty, hcr, hihr] at har
          refine har.trans ?_
          simp [emitList, emitTupleField]

theorem parse_tuple_fields_rt {d : Delim} {inner : List TokenTree}
    {tsf : TupleStructFields} (h : parse_tuple_fields d inner = some tsf) :
    emitList emitTupleField tsf.fields = inner ∧ tsf.tk_parens = GroupSpan.mk d := by
  simp only [parse_tuple_fields] at h
  match hl : tupleFieldsLoop (inner.length + 1) inner with
  | none => simp only [hl] at h; simp at h
  | some fs =>
    simp only [hl] at h
    simp only [Option.some.injEq] at h
    subst h
    exact ⟨(tupleFieldsLoop_rt _ inner fs hl).symm, rfl⟩

theorem namedFieldsLoop_rt :
    ∀ (fuel : Nat) (s : List TokenTree) (fs : Punctuated NamedField),
      namedFieldsLoop fuel s = some fs →
      s = emitList emitNamedField fs := by
  intro fuel
  induction fuel with
  | zero =>
    intro s fs h
    match s with
    | [] =>
      simp only [namedFieldsLoop, Option.some.injEq] at h
      subst h
      rfl
    | t :: rest => simp [namedFieldsLoop] at h
  | succ m ih =>
    intro s fs h
    match s with
    | [] =>
      simp only [namedFieldsLoop, Option.some.injEq] at h
      subst h
      rfl
    | t :: rest =>
      have har := consume_attributes_rt (t :: rest)
      have hvr := consume_vis_marker_rt (consume_attributes (t :: rest)).2
      match hv2 : (consume_vis_marker (consume_attributes (t :: rest)).2).2 with
      | [] => simp [namedFieldsLoop, hv2] at h
      | nameTok :: s2 =>
        match hpi : parse_ident nameTok with
        | none => simp [namedFieldsLoop, hv2, hpi] at h
        | some nm =>
          have hid := parse_ident_some hpi
          match s2 with
          | [] => simp [namedFieldsLoop, hv2, hpi] at h
          | TokenTree.ident w2 :: s3 => simp [namedFieldsLoop, hv2, hpi] at h
          | TokenTree.lit l2 :: s3 => simp [namedFieldsLoop, hv2, hpi] at h
          | TokenTree.group d2 g2 :: s3 => simp [namedFieldsLoop, hv2, hpi] at h
          | TokenTree.punct q :: s3 =>
            simp only [namedFieldsLoop, hv2, hpi] at h
            by_cases hq : q.char = ':'
            · rw [if_pos hq] at h
              match hft : consume_field_type s3 with
              | none => simp only [hft] at h; simp at h
              | some (ty, s4) =>
                simp only [hft] at h
                have hty := consume_field_type_rt hft
                have hcr := consume_comma_rt s4
                match hrec : namedFieldsLoop m (consume_comma s4).2 with
                | none => simp only [hrec] at h; simp at h
                | some fs2 =>
                  simp only [hrec] at h
                  simp only [Option.some.injEq] at h
                  subst h
                  have hihr := ih _ fs2 hrec
                  rw [hty, hcr, hihr] at hv2
                  rw [hid] at hv2
                  rw [hvr, hv2] at har
                  refine har.trans ?_
                  simp [emitList, emitNamedField]
            · rw [if_neg hq] at h
              simp at h

theorem parse_named_fields_rt {d : Delim} {inner : List TokenTree}
    {nsf : NamedStructFields} (h : parse_named_fields d inner = some nsf) :
    emitList emitNamedField nsf.fields = inner ∧ nsf.tk_braces = GroupSpan.mk d := by
  simp only [parse_named_fields] at h
  match hl : namedFieldsLoop (inner.length + 1) inner with
  | none => simp only [hl] at h; simp at h
  | some fs =>
    simp only [hl] at h
    simp only [Option.some.injEq] at h
    subst h
    exact ⟨(namedFieldsLoop_rt _ inner fs hl).symm, rfl⟩

theorem enumVariantContents_rt {s s3 : List TokenTree} {c : StructFields}
    (h : enumVariantContents s = some (c, s3)) :
    s = emitStructFields c ++ s3 := by
  match s with
  | [] =>
    simp only [enumVariantContents, Option.some.injEq, Prod.mk.injEq] at h
    obtain ⟨h1, h2⟩ := h
    subst h1; subst h2
    rfl
  | TokenTree.punct p :: rest =>
    simp only [enumVariantContents] at h
    by_cases hp : p.char = ',' ∨ p.char = '='
    · rw [if_pos hp] at h
      simp only [Option.some.injEq, Prod.mk.injEq] at h
      obtain ⟨h1, h2⟩ := h
      subst h1; subst h2
      rfl
    · rw [if_neg hp] at h
      simp at h
  | TokenTree.ident w :: rest => simp [enumVariantContents] at h
  | TokenTree.lit l :: rest => simp [enumVariantContents] at h
  | TokenTree.group Delim.paren g :: rest =>
    simp only [enumVariantContents] at h
    match hpf : parse_tuple_fields Delim.paren g with
    | none => simp only [hpf] at h; simp at h
    | some f =>
      simp only [hpf] at h
      simp only [Option.some.injEq, Prod.mk.injEq] at h
      obtain ⟨h1, h2⟩ := h
      subst h1; subst h2
      obtain ⟨hemit, hspan⟩ := parse_tuple_fields_rt hpf
      simp [emitStructFields, hemit, hspan]
  | TokenTree.group Delim.brace g :: rest =>
    simp only [enumVariantContents] at h
    match hpf : parse_named_fields Delim.brace g with
    | none => simp only [hpf] at h; simp at h
    | some f =>
      simp only [hpf] at h
      simp only [Option.some.injEq, Prod.mk.injEq] at h
      obtain ⟨h1, h2⟩ := h
      subst h1; subst h2
      obtain ⟨hemit, hspan⟩ := parse_named_fields_rt hpf
      simp [emitStructFields, hemit, hspan]
  | TokenTree.group Delim.bracket g :: rest => simp [enumVariantContents] at h
  | TokenTree.group Delim.implicitNone g :: rest => simp [enumVariantContents] at h

theorem enumVariantsLoop_rt :
    ∀ (fuel : Nat) (s : List TokenTree) (vs : Punctuated EnumVariant),
      enumVariantsLoop fuel s = some (Except.ok vs) →
      s = emitList emitEnumVariant vs := by
  intro fuel
  induction fuel with
  | zero =>
    intro s vs h
    match s with
    | [] =>
      simp only [enumVariantsLoop, Option.some.injEq, Except.ok.injEq] at h
      subst h
      rfl
    | t :: rest => simp [enumVariantsLoop] at h
  | succ m ih =>
    intro s vs h
    match s with
    | [] =>
      simp only [enumVariantsLoop, Option.some.injEq, Except.ok.injEq] at h
      subst h
      rfl
    | t :: rest =>
      simp only [enumVariantsLoop] at h
      have har := consume_attributes_rt (t :: rest)
      have hvr := consume_vis_marker_rt (consume_attributes (t :: rest)).2
      match hv2 : (consume_vis_marker (consume_attributes (t :: rest)).2).2 with
      | [] => simp only [hv2] at h; simp at h
      | nameTok :: s2 =>
        simp only [hv2] at h
        match hpi : parse_ident nameTok with
        | none => simp only [hpi] at h; simp at h
        | some nm =>
          simp only [hpi] at h
          have hid := parse_ident_some hpi
          match hec : enumVariantContents s2 with
          | none => simp only [hec] at h; simp at h
          | some (contents, s3) =>
            simp only [hec] at h
            have hcont := enumVariantContents_rt hec
            match hdisc : consume_enum_discriminant s3 with
            | none => simp only [hdisc] at h; simp at h
            | some (Except.error e, s4) =>
              simp only [hdisc] at h
              simp at h
            | some (Except.ok val, s4) =>
              simp only [hdisc] at h
              have hdrt := consume_enum_discriminant_ok_rt hdisc
              have hcr := consume_comma_rt s4
              match hrec : enumVariantsLoop m (consume_comma s4).2 with
              | none => simp only [hrec] at h; simp at h
              | some (Except.error e) => simp only [hrec] at h; simp at h
              | some (Except.ok vs2) =>
                simp only [hrec] at h
                simp only [Option.some.injEq, Except.ok.injEq] at h
                subst h
                have hihr := ih _ vs2 hrec
                rw [hcr, hihr] at hdrt
                rw [hdrt] at hcont
                rw [hid] at hv2
                rw [hcont] at hv2
                rw [hvr, hv2] at har
                refine har.trans ?_
                simp [emitList, emitEnumVariant]

theorem parse_enum_variants_rt {s : List TokenTree} {vs : Punctuated EnumVariant}
    (h : parse_enum_variants s = some (Except.ok vs)) :
    s = emitList emitEnumVariant vs :=
  enumVariantsLoop_rt (s.length + 1) s vs h

/-!
## Claim theorems
-/

/-- A punctuation token with alone spacing. -/
def pTok (c : Char) : TokenTree := TokenTree.punct (Punct.mk c false)

/-- A punctuation token with joint spacing. -/
def pjTok (c : Char) : TokenTree := TokenTree.punct (Punct.mk c true)

/-- C1 counterexample: `consume_generic_args` accepts the input `< , >`
completely (nothing remains), yet re-emitting every token preserved in the
returned tree yields only `< >` — the comma is lost, so round-trip
completeness fails as stated for `consume_generic_args`. -/
theorem claim_C1_counterexample :
    consume_generic_args [pTok '<', pTok ',', pTok '>'] =
      some (some (GenericArgList.mk none (Punct.mk '<' false) []
        (Punct.mk '>' false)), [])
    ∧ emitGenericArgList (GenericArgList.mk none (Punct.mk '<' false) []
        (Punct.mk '>' false)) = [pTok '<', pTok '>']
    ∧ [pTok '<', pTok '>'] ≠ [pTok '<', pTok ',', pTok '>'] := by
  refine ⟨rfl, rfl, ?_⟩
  intro hcontra
  have hlen := congrArg List.length hcontra
  simp at hlen

/-- C1 (amended). Round-trip completeness, as the code admits it: for
`consume_generic_params`, `parse_tuple_fields`, `parse_named_fields` and
`parse_enum_variants` the re-emitted tree reproduces the consumed input
exactly (fields loops keep the group delimiter for the boundary);
`consume_where_clause` reproduces the consumed input except that, when the
final bound scan stopped at a brace group or semicolon, the emission ends
with an extra copy of that unconsumed terminator; `consume_generic_args`
reproduces the consumed input except that one comma following an empty
argument slice may be dropped (the `extra` separator below). -/
theorem claim_C1_roundtrip :
    (∀ (s rem : List TokenTree) (gpl : GenericParamList),
      consume_generic_params s = some (some gpl, rem) →
      s = emitGenericParamList gpl ++ rem)
    ∧ (∀ (d : Delim) (inner : List TokenTree) (tsf : TupleStructFields),
      parse_tuple_fields d inner = some tsf →
      emitList emitTupleField tsf.fields = inner ∧ tsf.tk_parens = GroupSpan.mk d)
    ∧ (∀ (d : Delim) (inner : List TokenTree) (nsf : NamedStructFields),
      parse_named_fields d inner = some nsf →
      emitList emitNamedField nsf.fields = inner ∧ nsf.tk_braces = GroupSpan.mk d)
    ∧ (∀ (s : List TokenTree) (vs : Punctuated EnumVariant),
      parse_enum_variants s = some (Except.ok vs) →
      s = emitList emitEnumVariant vs)
    ∧ (∀ (s rem : List TokenTree) (wc : WhereClause),
      consume_where_clause s = some (some wc, rem) →
      ∃ pre, s = pre ++ rem ∧
        (emitWhereClause wc = pre ∨
         ∃ t r', rem = t :: r' ∧ emitWhereClause wc = pre ++ [t]))
    ∧ (∀ (s rem : List TokenTree) (gal : GenericArgList),
      consume_generic_args s = some (some gal, rem) →
      ∃ extra : Option Punct,
        s = tfToks gal.tk_turbofish_colons ++
          (TokenTree.punct gal.tk_l_bracket ::
            (emitList emitGenericArg gal.args ++ (sepToks extra ++
              (TokenTree.punct gal.tk_r_bracket :: rem))))) :=
  ⟨fun _ _ _ h => consume_generic_params_rt h,
   fun _ _ _ h => parse_tuple_fields_rt h,
   fun _ _ _ h => parse_named_fields_rt h,
   fun _ _ h => parse_enum_variants_rt h,
   fun _ _ _ h => consume_where_clause_rt h,
   fun _ _ _ h => consume_generic_args_rt h⟩

/-- Witness for the amended C1, instantiating every conjunct at a concrete
accepted input. -/
theorem claim_C1_roundtrip_witness :
    ([pTok '<', TokenTree.ident "T", pTok '>'] =
      emitGenericParamList (GenericParamList.mk (Punct.mk '<' false)
        [(GenericParam.mk none "T" none, none)] (Punct.mk '>' false)) ++ [])
    ∧ (emitList emitTupleField (TupleStructFields.mk
        [(TupleField.mk [] none (TyExpr.mk [TokenTree.ident "u8"]), none)]
        (GroupSpan.mk Delim.paren)).fields = [TokenTree.ident "u8"])
    ∧ (emitList emitNamedField (NamedStructFields.mk
        [(NamedField.mk [] none "x" (Punct.mk ':' false)
          (TyExpr.mk [TokenTree.ident "i32"]), none)]
        (GroupSpan.mk Delim.brace)).fields =
        [TokenTree.ident "x", pTok ':', TokenTree.ident "i32"])
    ∧ ([TokenTree.ident "A"] = emitList emitEnumVariant
        [(EnumVariant.mk [] none "A" StructFields.unit none, none)])
    ∧ (∃ pre, [TokenTree.ident "where", TokenTree.ident "T", pTok ':',
        TokenTree.ident "U", pTok ';'] = pre ++ [pTok ';'] ∧
        (emitWhereClause (WhereClause.mk "where"
          [(WhereClauseItem.mk [TokenTree.ident "T"]
            (GenericBound.mk (Punct.mk ':' false)
              [TokenTree.ident "U", pTok ';']), none)]) = pre ∨
         ∃ t r', [pTok ';'] = t :: r' ∧
           emitWhereClause (WhereClause.mk "where"
             [(WhereClauseItem.mk [TokenTree.ident "T"]
               (GenericBound.mk (Punct.mk ':' false)
                 [TokenTree.ident "U", pTok ';']), none)]) = pre ++ [t]))
    ∧ (∃ extra : Option Punct,
        [pTok '<', TokenTree.ident "T", pTok '>'] =
          tfToks (GenericArgList.mk none (Punct.mk '<' false)
            [(GenericArg.tyOrConst (TyExpr.mk [TokenTree.ident "T"]), none)]
            (Punct.mk '>' false)).tk_turbofish_colons ++
          (TokenTree.punct (GenericArgList.mk none (Punct.mk '<' false)
            [(GenericArg.tyOrConst (TyExpr.mk [TokenTree.ident "T"]), none)]
            (Punct.mk '>' false)).tk_l_bracket ::
            (emitList emitGenericArg (GenericArgList.mk none (Punct.mk '<' false)
              [(GenericArg.tyOrConst (TyExpr.mk [TokenTree.ident "T"]), none)]
              (Punct.mk '>' false)).args ++ (sepToks extra ++
              (TokenTree.punct (GenericArgList.mk none (Punct.mk '<' false)
                [(GenericArg.tyOrConst (TyExpr.mk [TokenTree.ident "T"]), none)]
                (Punct.mk '>' false)).tk_r_bracket :: []))))) :=
  ⟨claim_C1_roundtrip.1 _ [] _ rfl,
   (claim_C1_roundtrip.2.1 Delim.paren [TokenTree.ident "u8"] _ rfl).1,
   (claim_C1_roundtrip.2.2.1 Delim.brace
     [TokenTree.ident "x", pTok ':', TokenTree.ident "i32"] _ rfl).1,
   claim_C1_roundtrip.2.2.2.1 _ _ rfl,
   claim_C1_roundtrip.2.2.2.2.1 _ [pTok ';'] _ rfl,
   claim_C1_roundtrip.2.2.2.2.2 _ [] _ rfl⟩

/-- C10. The input `::<T,,>` is accepted by `consume_generic_args` with
nothing remaining; the returned tree stores the first comma as the lone
argument's separator and the second comma nowhere, so re-emission omits one
token of the accepted input. -/
theorem claim_C10 :
    consume_generic_args [pjTok ':', pTok ':', pTok '<', TokenTree.ident "T",
      pTok ',', pTok ',', pTok '>'] =
      some (some (GenericArgList.mk (some (Punct.mk ':' true, Punct.mk ':' false))
        (Punct.mk '<' false)
        [(GenericArg.tyOrConst (TyExpr.mk [TokenTree.ident "T"]),
          some (Punct.mk ',' false))]
        (Punct.mk '>' false)), [])
    ∧ emitGenericArgList (GenericArgList.mk
        (some (Punct.mk ':' true, Punct.mk ':' false)) (Punct.mk '<' false)
        [(GenericArg.tyOrConst (TyExpr.mk [TokenTree.ident "T"]),
          some (Punct.mk ',' false))]
        (Punct.mk '>' false)) =
      [pjTok ':', pTok ':', pTok '<', TokenTree.ident "T", pTok ',', pTok '>'] :=
  ⟨rfl, rfl⟩

/-- C6. The scenario input for generic parameters: a lifetime parameter, a
bounded type parameter and a bounded const parameter, with both angle
brackets stored in the returned list. -/
theorem claim_C6 :
    consume_generic_params
      [pTok '<', pjTok quoteChar, TokenTree.ident "a", pTok ',',
       TokenTree.ident "T", pTok ':', TokenTree.ident "Bound", pTok ',',
       TokenTree.ident "const", TokenTree.ident "N", pTok ':',
       TokenTree.ident "usize", pTok '>'] =
    some (some (GenericParamList.mk (Punct.mk '<' false)
      [(GenericParam.mk (some (pjTok quoteChar)) "a" none,
        some (Punct.mk ',' false)),
       (GenericParam.mk none "T" (some (GenericBound.mk (Punct.mk ':' false)
          [TokenTree.ident "Bound"])), some (Punct.mk ',' false)),
       (GenericParam.mk (some (TokenTree.ident "const")) "N"
          (some (GenericBound.mk (Punct.mk ':' false)
            [TokenTree.ident "usize"])), none)]
      (Punct.mk '>' false)), []) := rfl

/-- Whether a token stream begins with an equals punctuation. -/
def headIsEqualsTok : List TokenTree → Bool
  | TokenTree.punct p :: _ => p.char = '='
  | _ => false

/-- C2. `consume_enum_discriminant` returns absent whenever the next token is
not an equals punctuation; on an equals it consumes it plus exactly one value
token, returning a recoverable error value (not a fatal abort) exactly when
the stream then neither ends nor continues with a comma; and the three
variant scenarios `Red = 1`, `Red = 1 + 2`, `Red = (1 + 2)` behave as
specified. -/
theorem claim_C2 :
    (∀ s : List TokenTree, headIsEqualsTok s = false →
      consume_enum_discriminant s = some (Except.ok none, s))
    ∧ (∀ (p : Punct) (v : TokenTree), p.char = '=' →
      consume_enum_discriminant [TokenTree.punct p, v] =
        some (Except.ok (some (EnumVariantValue.mk p v)), []))
    ∧ (∀ (p : Punct) (v t : TokenTree) (r : List TokenTree), p.char = '=' →
      isCommaTok t = true →
      consume_enum_discriminant (TokenTree.punct p :: v :: t :: r) =
        some (Except.ok (some (EnumVariantValue.mk p v)), t :: r))
    ∧ (∀ (p : Punct) (v t : TokenTree) (r : List TokenTree), p.char = '=' →
      isCommaTok t = false →
      consume_enum_discriminant (TokenTree.punct p :: v :: t :: r) =
        some (Except.error (Error.mk
          "Complex values for enum variants are not supported unless they are between parentheses."),
          t :: r))
    ∧ parse_enum_variants [TokenTree.ident "Red", pTok '=', TokenTree.lit "1"] =
        some (Except.ok [(EnumVariant.mk [] none "Red" StructFields.unit
          (some (EnumVariantValue.mk (Punct.mk '=' false) (TokenTree.lit "1"))),
          none)])
    ∧ parse_enum_variants [TokenTree.ident "Red", pTok '=', TokenTree.lit "1",
        pTok '+', TokenTree.lit "2"] =
        some (Except.error (Error.mk
          "Complex values for enum variants are not supported unless they are between parentheses."))
    ∧ parse_enum_variants [TokenTree.ident "Red", pTok '=',
        TokenTree.group Delim.paren
          [TokenTree.lit "1", pTok '+', TokenTree.lit "2"]] =
        some (Except.ok [(EnumVariant.mk [] none "Red" StructFields.unit
          (some (EnumVariantValue.mk (Punct.mk '=' false)
            (TokenTree.group Delim.paren
              [TokenTree.lit "1", pTok '+', TokenTree.lit "2"]))), none)]) := by
  refine ⟨?_, ?_, ?_, ?_, rfl, rfl, rfl⟩
  · intro s hs
    match s with
    | [] => rfl
    | TokenTree.punct p :: rest =>
      simp only [headIsEqualsTok, decide_eq_false_iff_not] at hs
      simp [consume_enum_discriminant, hs]
    | TokenTree.ident w :: rest => rfl
    | TokenTree.lit l :: rest => rfl
    | TokenTree.group d g :: rest => rfl
  · intro p v hp
    simp only [consume_enum_discriminant]
    rw [if_pos hp]
  · intro p v t r hp ht
    simp only [consume_enum_discriminant]
    rw [if_pos hp, if_pos ht]
  · intro p v t r hp ht
    simp only [consume_enum_discriminant]
    rw [if_pos hp, if_neg (by simp [ht])]

/-- Witness for C2 at concrete inputs for each universally quantified
conjunct. -/
theorem claim_C2_witness :
    headIsEqualsTok [TokenTree.ident "X"] = false
    ∧ consume_enum_discriminant [TokenTree.ident "X"] =
        some (Except.ok none, [TokenTree.ident "X"])
    ∧ consume_enum_discriminant [pTok '=', TokenTree.lit "1"] =
        some (Except.ok (some (EnumVariantValue.mk (Punct.mk '=' false)
          (TokenTree.lit "1"))), [])
    ∧ consume_enum_discriminant [pTok '=', TokenTree.lit "1", pTok ',',
        TokenTree.ident "B"] =
        some (Except.ok (some (EnumVariantValue.mk (Punct.mk '=' false)
          (TokenTree.lit "1"))), [pTok ',', TokenTree.ident "B"])
    ∧ consume_enum_discriminant [pTok '=', TokenTree.lit "1", pTok '+',
        TokenTree.lit "2"] =
        some (Except.error (Error.mk
          "Complex values for enum variants are not supported unless they are between parentheses."),
          [pTok '+', TokenTree.lit "2"]) :=
  ⟨rfl,
   claim_C2.1 [TokenTree.ident "X"] rfl,
   claim_C2.2.1 (Punct.mk '=' false) (TokenTree.lit "1") rfl,
   claim_C2.2.2.1 (Punct.mk '=' false) (TokenTree.lit "1") (pTok ',')
     [TokenTree.ident "B"] rfl rfl,
   claim_C2.2.2.2.1 (Punct.mk '=' false) (TokenTree.lit "1") (pTok '+')
     [TokenTree.lit "2"] rfl rfl⟩

/-- Whether a token stream begins with an opening angle-bracket token. -/
def headIsLtTok : List TokenTree → Bool
  | t :: _ => isLtTok t
  | [] => false

/-- C3. Turbofish rollback: on input beginning with a double-colon not
followed by an opening angle bracket, `consume_generic_args` returns absent
and the stream is restored exactly; the double-colon's first token is the
next token and nothing is lost. -/
theorem claim_C3 (p1 p2 : Punct) (rest : List TokenTree)
    (h1 : p1.char = ':') (h2 : p1.joint = true) (h3 : p2.char = ':')
    (h4 : headIsLtTok rest = false) :
    consume_generic_args (TokenTree.punct p1 :: TokenTree.punct p2 :: rest) =
      some (none, TokenTree.punct p1 :: TokenTree.punct p2 :: rest) := by
  have htc : try_consume_colon2
      (TokenTree.punct p1 :: TokenTree.punct p2 :: rest) = (some (p1, p2), rest) := by
    simp [try_consume_colon2, h1, h2, h3]
  match rest with
  | [] => simp [consume_generic_args, htc]
  | TokenTree.punct q :: r2 =>
    have hq : ¬ q.char = '<' := by
      simp only [headIsLtTok, isLtTok, decide_eq_false_iff_not] at h4
      exact h4
    simp [consume_generic_args, htc, hq]
  | TokenTree.ident w :: r2 => simp [consume_generic_args, htc]
  | TokenTree.lit l :: r2 => simp [consume_generic_args, htc]
  | TokenTree.group d g :: r2 => simp [consume_generic_args, htc]

/-- Witness for C3 at a concrete double-colon followed by an identifier. -/
theorem claim_C3_witness :
    (Punct.mk ':' true).char = ':' ∧ (Punct.mk ':' true).joint = true
    ∧ (Punct.mk ':' false).char = ':'
    ∧ headIsLtTok [TokenTree.ident "T"] = false
    ∧ consume_generic_args [pjTok ':', pTok ':', TokenTree.ident "T"] =
        some (none, [pjTok ':', pTok ':', TokenTree.ident "T"]) :=
  ⟨rfl, rfl, rfl, rfl,
   claim_C3 (Punct.mk ':' true) (Punct.mk ':' false) [TokenTree.ident "T"]
     rfl rfl rfl rfl⟩

/-- Whether a slice is exactly one identifier token. -/
def isSingleIdentTok : List TokenTree → Bool
  | [TokenTree.ident _] => true
  | _ => false

/-- Whether a slice begins with the lifetime-marker punctuation. -/
def startsWithLifetime : List TokenTree → Bool
  | TokenTree.punct p :: _ => p.char = quoteChar
  | _ => false

/-- Whether a slice begins with an identifier immediately followed by an
equals punctuation. -/
def startsWithBinding : List TokenTree → Bool
  | TokenTree.ident _ :: TokenTree.punct q :: _ => q.char = '='
  | _ => false

/-- C4 counterexample: a slice beginning with a lifetime marker that does not
match the lifetime shape — here two adjacent lifetime markers — is a fatal
abort in `consume_generic_arg`, not the TyOrConst argument the claim
requires. -/
theorem claim_C4_counterexample :
    consume_generic_arg [pjTok quoteChar, pTok quoteChar] = none
    ∧ consume_generic_arg [pjTok quoteChar, pTok quoteChar] ≠
        some (GenericArg.tyOrConst
          (TyExpr.mk [pjTok quoteChar, pTok quoteChar])) := by
  constructor
  · rfl
  · intro hc
    have h0 : consume_generic_arg [pjTok quoteChar, pTok quoteChar] =
        (none : Option GenericArg) := rfl
    rw [h0] at hc
    exact Option.noConfusion hc

/-- C4 (amended). Classification of a non-empty scanned argument slice by
`consume_generic_arg`: a lifetime marker followed by exactly one identifier
is a Lifetime argument; any other slice beginning with a lifetime marker is
a fatal abort; an identifier immediately followed by an equals punctuation
is a Binding argument over the remainder; every remaining non-empty slice is
a TyOrConst argument containing the whole slice. -/
theorem claim_C4_classification :
    (∀ (tk : Punct) (x : String), tk.char = quoteChar →
      consume_generic_arg [TokenTree.punct tk, TokenTree.ident x] =
        some (GenericArg.lifetime tk x))
    ∧ (∀ (tk : Punct) (rest : List TokenTree), tk.char = quoteChar →
      isSingleIdentTok rest = false →
      consume_generic_arg (TokenTree.punct tk :: rest) = none)
    ∧ (∀ (x : String) (q : Punct) (rest : List TokenTree), q.char = '=' →
      consume_generic_arg (TokenTree.ident x :: TokenTree.punct q :: rest) =
        some (GenericArg.binding x q (TyExpr.mk rest)))
    ∧ (∀ s : List TokenTree, s ≠ [] → startsWithLifetime s = false →
      startsWithBinding s = false →
      consume_generic_arg s = some (GenericArg.tyOrConst (TyExpr.mk s))) := by
  refine ⟨?_, ?_, ?_, ?_⟩
  · intro tk x htk
    simp only [consume_generic_arg]
    rw [if_pos htk]
  · intro tk rest htk hrest
    simp only [consume_generic_arg]
    rw [if_pos htk]
    match rest with
    | [] => rfl
    | [TokenTree.ident x] => simp [isSingleIdentTok] at hrest
    | [TokenTree.punct q] => rfl
    | [TokenTree.lit l] => rfl
    | [TokenTree.group d g] => rfl
    | TokenTree.ident x :: u :: more => rfl
    | TokenTree.punct q :: u :: more => rfl
    | TokenTree.lit l :: u :: more => rfl
    | TokenTree.group d g :: u :: more => rfl
  · intro x q rest hq
    simp [consume_generic_arg, bindingOrTy, hq]
  · intro s hne hlife hbind
    match s with
    | [] => exact absurd rfl hne
    | TokenTree.punct p :: rest =>
      simp only [startsWithLifetime, decide_eq_false_iff_not] at hlife
      simp [consume_generic_arg, hlife, bindingOrTy]
    | TokenTree.ident x :: rest =>
      match rest with
      | [] => rfl
      | TokenTree.punct q :: r2 =>
        simp only [startsWithBinding, decide_eq_false_iff_not] at hbind
        simp [consume_generic_arg, bindingOrTy, hbind]
      | TokenTree.ident y :: r2 => rfl
      | TokenTree.lit l :: r2 => rfl
      | TokenTree.group d g :: r2 => rfl
    | TokenTree.lit l :: rest => rfl
    | TokenTree.group d g :: rest => rfl

/-- Witness for the amended C4, instantiating all four shapes. -/
theorem claim_C4_classification_witness :
    consume_generic_arg [pjTok quoteChar, TokenTree.ident "a"] =
      some (GenericArg.lifetime (Punct.mk quoteChar true) "a")
    ∧ consume_generic_arg [pjTok quoteChar, TokenTree.lit "3"] = none
    ∧ consume_generic_arg [TokenTree.ident "Item", pTok '=',
        TokenTree.ident "u8"] =
      some (GenericArg.binding "Item" (Punct.mk '=' false)
        (TyExpr.mk [TokenTree.ident "u8"]))
    ∧ consume_generic_arg [TokenTree.lit "3"] =
      some (GenericArg.tyOrConst (TyExpr.mk [TokenTree.lit "3"])) :=
  ⟨claim_C4_classification.1 (Punct.mk quoteChar true) "a" rfl,
   claim_C4_classification.2.1 (Punct.mk quoteChar true) [TokenTree.lit "3"]
     rfl rfl,
   claim_C4_classification.2.2.1 "Item" (Punct.mk '=' false)
     [TokenTree.ident "u8"] rfl,
   claim_C4_classification.2.2.2 [TokenTree.lit "3"] (by simp) rfl rfl⟩

/-- C5. In the where-clause item parse (the loop body of
`consume_where_clause`), the bound captured after the colon excludes a comma
terminator — the comma becomes the item's separator, with the full consumed
sequence being left side, colon, bound, comma — while a brace-group or
semicolon terminator is included as the bound's last token, with the
terminator itself still heading the unconsumed remainder. -/
theorem claim_C5 {s : List TokenTree} {item : WhereClauseItem}
    {sep : Option Punct} {rem : List TokenTree}
    (h : whereClauseItemStep s = some ((item, sep), rem)) :
    (∀ c : Punct, sep = some c →
      s = item.left_side ++ (TokenTree.punct item.bound.tk_colon ::
        (item.bound.tokens ++ (TokenTree.punct c :: rem))))
    ∧ (sep = none → ∀ t r', rem = t :: r' →
        (isBraceGroup t || isSemiTok t) = true →
        ∃ front, item.bound.tokens = front ++ [t] ∧
          s = item.left_side ++ (TokenTree.punct item.bound.tk_colon ::
            (front ++ rem))) := by
  obtain ⟨hcomma, _, hcopy, _⟩ := whereClauseItemStep_spec h
  exact ⟨hcomma, hcopy⟩

/-- Witness for C5: a comma-terminated item and a brace-terminated item. -/
theorem claim_C5_witness :
    whereClauseItemStep [TokenTree.ident "T", pTok ':', TokenTree.ident "U",
        pTok ',', TokenTree.ident "X"] =
      some ((WhereClauseItem.mk [TokenTree.ident "T"]
        (GenericBound.mk (Punct.mk ':' false) [TokenTree.ident "U"]),
        some (Punct.mk ',' false)), [TokenTree.ident "X"])
    ∧ [TokenTree.ident "T", pTok ':', TokenTree.ident "U", pTok ',',
        TokenTree.ident "X"] =
      (WhereClauseItem.mk [TokenTree.ident "T"]
        (GenericBound.mk (Punct.mk ':' false) [TokenTree.ident "U"])).left_side ++
        (TokenTree.punct (WhereClauseItem.mk [TokenTree.ident "T"]
          (GenericBound.mk (Punct.mk ':' false)
            [TokenTree.ident "U"])).bound.tk_colon ::
          ((WhereClauseItem.mk [TokenTree.ident "T"]
            (GenericBound.mk (Punct.mk ':' false)
              [TokenTree.ident "U"])).bound.tokens ++
            (TokenTree.punct (Punct.mk ',' false) :: [TokenTree.ident "X"])))
    ∧ ∃ front, (WhereClauseItem.mk [TokenTree.ident "T"]
        (GenericBound.mk (Punct.mk ':' false)
          [TokenTree.ident "U", TokenTree.group Delim.brace []])).bound.tokens =
        front ++ [TokenTree.group Delim.brace []] ∧
      [TokenTree.ident "T", pTok ':', TokenTree.ident "U",
        TokenTree.group Delim.brace []] =
      (WhereClauseItem.mk [TokenTree.ident "T"]
        (GenericBound.mk (Punct.mk ':' false)
          [TokenTree.ident "U", TokenTree.group Delim.brace []])).left_side ++
        (TokenTree.punct (WhereClauseItem.mk [TokenTree.ident "T"]
          (GenericBound.mk (Punct.mk ':' false)
            [TokenTree.ident "U",
             TokenTree.group Delim.brace []])).bound.tk_colon ::
          (front ++ [TokenTree.group Delim.brace []])) :=
  ⟨rfl,
   (@claim_C5 [TokenTree.ident "T", pTok ':', TokenTree.ident "U", pTok ',',
       TokenTree.ident "X"]
     (WhereClauseItem.mk [TokenTree.ident "T"]
       (GenericBound.mk (Punct.mk ':' false) [TokenTree.ident "U"]))
     (some (Punct.mk ',' false)) [TokenTree.ident "X"] rfl).1
     (Punct.mk ',' false) rfl,
   (@claim_C5 [TokenTree.ident "T", pTok ':', TokenTree.ident "U",
       TokenTree.group Delim.brace []]
     (WhereClauseItem.mk [TokenTree.ident "T"]
       (GenericBound.mk (Punct.mk ':' false)
         [TokenTree.ident "U", TokenTree.group Delim.brace []]))
     none [TokenTree.group Delim.brace []] rfl).2 rfl
     (TokenTree.group Delim.brace []) [] rfl rfl⟩

/-- C9. When `consume_enum_discriminant` reports its recoverable error, the
equals punctuation and the single value token stay consumed and the returned
stream starts at the first extra token of the too-complex value: the
recoverable error is not atomic with respect to cursor state. -/
theorem claim_C9 (p : Punct) (v t : TokenTree) (r : List TokenTree)
    (hp : p.char = '=') (ht : isCommaTok t = false) :
    consume_enum_discriminant (TokenTree.punct p :: v :: t :: r) =
      some (Except.error (Error.mk
        "Complex values for enum variants are not supported unless they are between parentheses."),
        t :: r) := by
  simp only [consume_enum_discriminant]
  rw [if_pos hp, if_neg (by simp [ht])]

/-- Witness for C9: after `= 1 + 2` the error is returned with the cursor on
the plus token. -/
theorem claim_C9_witness :
    (Punct.mk '=' false).char = '='
    ∧ isCommaTok (pTok '+') = false
    ∧ consume_enum_discriminant [pTok '=', TokenTree.lit "1", pTok '+',
        TokenTree.lit "2"] =
      some (Except.error (Error.mk
        "Complex values for enum variants are not supported unless they are between parentheses."),
        [pTok '+', TokenTree.lit "2"]) :=
  ⟨rfl, rfl,
   claim_C9 (Punct.mk '=' false) (TokenTree.lit "1") (pTok '+')
     [TokenTree.lit "2"] rfl rfl⟩
